import Mathlib

/-!
Verification of the stalk-market prediction engine (`src/Code.ts`).

The JavaScript numbers of the source are embedded as exact rationals (`ℚ`);
decimal literals of the source denote the corresponding rationals, the
`NaN` sentinel marking an unknown observation is embedded as `Option.none`,
and `Math.floor` / `Math.ceil` / `Math.round` become the integer-valued
rational operations.  A JavaScript `Map` with its find-or-insert update and
insertion-order iteration is embedded as an association list updated in
place (`addToMap` / `addToTrends`).  Functions that use `return` with no
value to signal hypothesis rejection return `Option`, and the one function
that can `throw` (`generatePatternZeroWithLengths`) returns `Except`.
-/

namespace StalkMarket

/-- `Estimate` of `src/Code.ts`: a (price, probability) pair.  The same
structure doubles as a (rate, probability) pair inside `generateRates`,
exactly as in the source. -/
structure Estimate where
  price : ℚ
  probability : ℚ
deriving DecidableEq

/-- `Trend` of `src/Code.ts`: a named pattern weight. -/
structure Trend where
  name : String
  probability : ℚ
deriving DecidableEq

/-- `Prediction` of `src/Code.ts`: 14 per-slot distributions plus trend weights. -/
structure Prediction where
  estimates : List (List Estimate)
  trends : List Trend
deriving DecidableEq

/-- `Math.floor`, as a rational-valued operation. -/
def ratFloor (x : ℚ) : ℚ := ((Int.floor x : ℤ) : ℚ)

/-- `Math.ceil`, as a rational-valued operation. -/
def ratCeil (x : ℚ) : ℚ := ((Int.ceil x : ℤ) : ℚ)

/-- The value sequence of a JavaScript loop
`for (v = lo; v <= hi; v += step)` with `step > 0`:
`lo, lo + step, …` while the value stays `≤ hi`. -/
def stepValues (lo hi step : ℚ) : List ℚ :=
  (List.range (if lo ≤ hi then (Int.floor ((hi - lo) / step) + 1).toNat else 0)).map
    (fun k : ℕ => lo + (k : ℚ) * step)

/-- Find-or-insert update of a JavaScript `Map<number, Estimate>` keyed by
price: the first entry with the given price gets its probability increased,
otherwise a fresh entry is appended (insertion order preserved). -/
def addToMap : List Estimate → ℚ → ℚ → List Estimate
  | [], price, prob => [⟨price, prob⟩]
  | e :: rest, price, prob =>
    if e.price = price then ⟨e.price, e.probability + prob⟩ :: rest
    else e :: addToMap rest price prob

/-- Find-or-insert update of a JavaScript `Map<string, Trend>` keyed by name. -/
def addToTrends : List Trend → String → ℚ → List Trend
  | [], name, prob => [⟨name, prob⟩]
  | t :: rest, name, prob =>
    if t.name = name then ⟨t.name, t.probability + prob⟩ :: rest
    else t :: addToTrends rest name prob

/-- `priceRange(min, max, probability)` of `src/Code.ts`: loops `p` from
`min` to `max` in steps of 1, each entry weighted `probability / length`
where `length = max - min + 1`. -/
def priceRange (minP maxP probability : ℚ) : List Estimate :=
  (stepValues minP maxP 1).map (fun p => ⟨p, probability / (maxP - minP + 1)⟩)

/-- `multiplyEstimates(a, b)` of `src/Code.ts`: for every pair, accumulate
`ceil(a.price * b.price)` with probability `a.probability * b.probability`
into a price-keyed map. -/
def multiplyEstimates (a b : List Estimate) : List Estimate :=
  a.foldl
    (fun ret aa =>
      b.foldl
        (fun ret bb => addToMap ret (ratCeil (aa.price * bb.price)) (aa.probability * bb.probability))
        ret)
    []

/-- One step of `generateRates`: build day `i+1` of the rate chain from day
`i`, subtracting every `rateChange` in `[incrMin, incrMax + rateInterval/10]`
(step `rateInterval`) from every prior rate and accumulating by rate value. -/
def nextRates (incrMin incrMax rateInterval changeProbability : ℚ) (prior : List Estimate) : List Estimate :=
  prior.foldl
    (fun period priorRate =>
      (stepValues incrMin (incrMax + rateInterval / 10) rateInterval).foldl
        (fun period rateChange =>
          addToMap period (priorRate.price - rateChange) (priorRate.probability * changeProbability))
        period)
    []

/-- Iterate `nextRates`: `ratesChain f n d = [d, f d, f (f d), …]` with
`n + 1` entries, matching `rates[i + 1] = step(rates[i])`. -/
def ratesChain (f : List Estimate → List Estimate) : ℕ → List Estimate → List (List Estimate)
  | 0, d => [d]
  | n + 1, d => d :: ratesChain f n (f d)

/-- `generateRates(startMin, startMax, incrMin, incrMax, length)` of
`src/Code.ts`.  Day 0 discretizes `[startMin, startMax + rateInterval/10]`
at step `rateInterval = 0.01`; each later day subtracts a discretized step. -/
def generateRates (startMin startMax incrMin incrMax : ℚ) (length : ℕ) : List (List Estimate) :=
  if length = 0 then []
  else
    let rateInterval : ℚ := 0.01
    let initialProbability : ℚ := 1 / ((round ((startMax - startMin) / rateInterval) : ℤ) + 1 : ℚ)
    let changeProbability : ℚ := 1 / ((round ((incrMax - incrMin) / rateInterval) : ℤ) + 1 : ℚ)
    let day0 : List Estimate :=
      (stepValues startMin (startMax + rateInterval / 10) rateInterval).map
        (fun startingRate => ⟨startingRate, initialProbability⟩)
    ratesChain (nextRates incrMin incrMax rateInterval changeProbability) (length - 1) day0

/-- `Math.min(...estimates.map(e => e.price))`: `⊤` (`Infinity`) on the empty list. -/
def minPrice (l : List Estimate) : WithTop ℚ :=
  l.foldr (fun e m => min (↑e.price) m) ⊤

/-- `Math.max(...estimates.map(e => e.price))`: `⊥` (`-Infinity`) on the empty list. -/
def maxPrice (l : List Estimate) : WithBot ℚ :=
  l.foldr (fun e m => max (↑e.price) m) ⊥

/-- What one time slot of a phase computes before looking at the
observation: either a pair of bounds fed to `priceRange`, or a ready-made
distribution whose price minimum/maximum is used for the bound check. -/
inductive SlotSpec where
  | bounded (minPred maxPred : ℚ)
  | fromEstimates (estimates : List Estimate)
deriving DecidableEq

/-- The rejection test of every phase: a known price below the minimum or
above the maximum of the slot's candidate prices rejects the branch. -/
def outOfBoundsB (v : ℚ) : SlotSpec → Bool
  | .bounded minPred maxPred => decide (v < minPred) || decide (maxPred < v)
  | .fromEstimates es => decide ((v : WithTop ℚ) < minPrice es) || decide (maxPrice es < (v : WithBot ℚ))

/-- The observation handling shared by every phase of every pattern: a
known in-bounds price collapses the slot to `priceRange(v, v, probability)`,
a known out-of-bounds price rejects the branch, an unknown slot keeps the
computed candidates. -/
def applySlot (obs : Option ℚ) (probability : ℚ) (slotSpec : SlotSpec) : Option (List Estimate) :=
  match obs with
  | some v => if outOfBoundsB v slotSpec then none else some (priceRange v v probability)
  | none =>
    match slotSpec with
    | .bounded minPred maxPred => some (priceRange minPred maxPred probability)
    | .fromEstimates es => some es

/-- Build the slots `lo, lo+1, …, lo+n-1`, aborting the whole branch as
soon as one slot rejects. -/
def buildSlots (f : ℕ → Option (List Estimate)) : ℕ → ℕ → Option (List (List Estimate))
  | _, 0 => some []
  | lo, n + 1 =>
    match f lo with
    | none => none
    | some e =>
      match buildSlots f (lo + 1) n with
      | none => none
      | some rest => some (e :: rest)

/-- Merge one source slot distribution into an accumulator map
(`retPrice.probability += price.probability` over a price-keyed map). -/
def mergeSlot (acc src : List Estimate) : List Estimate :=
  src.foldl (fun m e => addToMap m e.price e.probability) acc

/-- Merge the per-slot distribution lists of one prediction into the
accumulated per-slot maps, extending the accumulator where needed
(`if (!estimates[timePeriod]) estimates[timePeriod] = new Map()`). -/
def mergeSlotLists : List (List Estimate) → List (List Estimate) → List (List Estimate)
  | acc, [] => acc
  | [], s :: ss => mergeSlot [] s :: mergeSlotLists [] ss
  | a :: as, s :: ss => mergeSlot a s :: mergeSlotLists as ss

/-- Merge one prediction's trends into the accumulated name-keyed map. -/
def mergeTrends (acc src : List Trend) : List Trend :=
  src.foldl (fun m t => addToTrends m t.name t.probability) acc

/-- `mergePredictions` of `src/Code.ts`: fold the non-rejected predictions
into per-slot price maps and a trend map; rejected branches (`none`) are
skipped entirely. -/
def mergePredictions (predictions : List (Option Prediction)) : Prediction :=
  predictions.foldl
    (fun acc p =>
      match p with
      | none => acc
      | some pr => ⟨mergeSlotLists acc.estimates pr.estimates, mergeTrends acc.trends pr.trends⟩)
    ⟨[], []⟩

/-- The per-slot candidates of `generatePatternZeroWithLengths`
(`src/Code.ts` lines 362-464), for slots `2 ≤ i`: high phase 1, dec phase
1, high phase 2, dec phase 2, high phase 3, in that order. -/
def patternZeroSlotSpec (g0 g1 : ℚ) (hp1 dp1 hp2 dp2 : ℕ)
    (r1 r2 : List (List Estimate)) (probability : ℚ) (i : ℕ) : SlotSpec :=
  if i < 2 + hp1 then .bounded (ratFloor (0.9 * g0)) (ratCeil (1.4 * g1))
  else if i < 2 + hp1 + dp1 then
    .fromEstimates (multiplyEstimates (r1.getD (i - (2 + hp1)) []) (priceRange g0 g1 probability))
  else if i < 2 + hp1 + dp1 + hp2 then .bounded (ratFloor (0.9 * g0)) (ratCeil (1.4 * g1))
  else if i < 2 + hp1 + dp1 + hp2 + dp2 then
    .fromEstimates (multiplyEstimates (r2.getD (i - (2 + hp1 + dp1 + hp2)) []) (priceRange g0 g1 probability))
  else .bounded (ratFloor (0.9 * g0)) (ratCeil (1.4 * g1))

/-- `generatePatternZeroWithLengths` of `src/Code.ts`: slots 0 and 1 are the
purchase-price prior, the first four phases run before the phase-length
consistency check (`throw` becomes `.error`), then high phase 3 fills up to
slot 14.  A rejected slot yields `.ok none`. -/
def generatePatternZeroWithLengths (g0 g1 : ℚ) (given : ℕ → Option ℚ)
    (hp1 dp1 hp2 dp2 hp3 : ℕ) (r1 r2 : List (List Estimate)) (probability : ℚ) :
    Except String (Option Prediction) :=
  match buildSlots
      (fun i => applySlot (given i) probability (patternZeroSlotSpec g0 g1 hp1 dp1 hp2 dp2 r1 r2 probability i))
      2 (hp1 + dp1 + hp2 + dp2) with
  | none => .ok none
  | some segA =>
    if 2 + hp1 + dp1 + hp2 + dp2 + hp3 ≠ 14 then .error "Phase lengths dont add up"
    else
      match buildSlots
          (fun i => applySlot (given i) probability (patternZeroSlotSpec g0 g1 hp1 dp1 hp2 dp2 r1 r2 probability i))
          (2 + hp1 + dp1 + hp2 + dp2) (14 - (2 + hp1 + dp1 + hp2 + dp2)) with
      | none => .ok none
      | some segB =>
        .ok (some
          { estimates := [priceRange g0 g1 probability, priceRange g0 g1 probability] ++ segA ++ segB,
            trends := [⟨"Random", probability⟩] })

/-- `min_randoms` of `generatePatternOneWithPeak`. -/
def minRandoms : List ℚ := [0.9, 1.4, 2.0, 1.4, 0.9, 0.4, 0.4, 0.4, 0.4, 0.4, 0.4]

/-- `max_randoms` of `generatePatternOneWithPeak`. -/
def maxRandoms : List ℚ := [1.4, 2.0, 6.0, 2.0, 1.4, 0.9, 0.9, 0.9, 0.9, 0.9, 0.9]

/-- The per-slot candidates of `generatePatternOneWithPeak` (`src/Code.ts`
lines 466-507), for slots `2 ≤ i`: a decaying run-up to `peak_start`, then
independent random bounds from `min_randoms` / `max_randoms`. -/
def patternOneSlotSpec (g0 g1 : ℚ) (peakStart : ℕ) (rates : List (List Estimate))
    (probability : ℚ) (i : ℕ) : SlotSpec :=
  if i < peakStart then
    .fromEstimates (multiplyEstimates (rates.getD (i - 2) []) (priceRange g0 g1 probability))
  else
    .bounded (ratFloor (minRandoms.getD (i - peakStart) 0 * g0))
      (ratCeil (maxRandoms.getD (i - peakStart) 0 * g1))

/-- `generatePatternOneWithPeak` of `src/Code.ts`. -/
def generatePatternOneWithPeak (g0 g1 : ℚ) (given : ℕ → Option ℚ)
    (peakStart : ℕ) (rates : List (List Estimate)) (probability : ℚ) : Option Prediction :=
  match buildSlots
      (fun i => applySlot (given i) probability (patternOneSlotSpec g0 g1 peakStart rates probability i))
      2 12 with
  | none => none
  | some slots =>
    some
      { estimates := [priceRange g0 g1 probability, priceRange g0 g1 probability] ++ slots,
        trends := [⟨"Big Spike", probability⟩] }

/-- The per-slot candidates of `generatePatternTwoWithRates` (`src/Code.ts`
lines 509-532): every slot decays through the supplied rate chain. -/
def patternTwoSlotSpec (g0 g1 : ℚ) (rates : List (List Estimate)) (probability : ℚ) (i : ℕ) : SlotSpec :=
  .fromEstimates (multiplyEstimates (rates.getD (i - 2) []) (priceRange g0 g1 probability))

/-- `generatePatternTwoWithRates` of `src/Code.ts`. -/
def generatePatternTwoWithRates (g0 g1 : ℚ) (given : ℕ → Option ℚ)
    (rates : List (List Estimate)) (probability : ℚ) : Option Prediction :=
  match buildSlots
      (fun i => applySlot (given i) probability (patternTwoSlotSpec g0 g1 rates probability i))
      2 12 with
  | none => none
  | some slots =>
    some
      { estimates := [priceRange g0 g1 probability, priceRange g0 g1 probability] ++ slots,
        trends := [⟨"Decreasing", probability⟩] }

/-- The per-slot candidates of `generatePatternThreeWithPeak` (`src/Code.ts`
lines 534-611), for slots `2 ≤ i`: a decaying phase up to `peak_start`, the
two peak slots bounded by `0.9` / `1.4`, three spike slots whose maximum
uses `spike_rate` and whose minimum is `floor((i = peak_start+3 ? spike_rate
: 1.4) * g0) - 1`, then a second decaying phase. -/
def patternThreeSlotSpec (g0 g1 : ℚ) (peakStart : ℕ) (spikeRate : ℚ)
    (r1 r2 : List (List Estimate)) (probability : ℚ) (i : ℕ) : SlotSpec :=
  if i < peakStart then
    .fromEstimates (multiplyEstimates (r1.getD (i - 2) []) (priceRange g0 g1 probability))
  else if i < peakStart + 2 then .bounded (ratFloor (0.9 * g0)) (ratCeil (1.4 * g1))
  else if i < peakStart + 5 then
    .bounded (ratFloor ((if i = peakStart + 3 then spikeRate else 1.4) * g0) - 1)
      (ratCeil (spikeRate * g1))
  else
    .fromEstimates (multiplyEstimates (r2.getD (i - (peakStart + 5)) []) (priceRange g0 g1 probability))

/-- `generatePatternThreeWithPeak` of `src/Code.ts`. -/
def generatePatternThreeWithPeak (g0 g1 : ℚ) (given : ℕ → Option ℚ)
    (peakStart : ℕ) (spikeRate : ℚ) (r1 r2 : List (List Estimate)) (probability : ℚ) :
    Option Prediction :=
  match buildSlots
      (fun i => applySlot (given i) probability (patternThreeSlotSpec g0 g1 peakStart spikeRate r1 r2 probability i))
      2 12 with
  | none => none
  | some slots =>
    some
      { estimates := [priceRange g0 g1 probability, priceRange g0 g1 probability] ++ slots,
        trends := [⟨"Small Spike", probability⟩] }

/-- One grid cell of `generatePatternZero`: a dec-phase-1 length, the two
high-phase lengths, and the cell's share of the pattern prior. -/
structure P0Cell where
  dec1 : ℕ
  hp1 : ℕ
  hp3 : ℕ
  prob : ℚ
deriving DecidableEq

/-- The parameter grid of `generatePatternZero` (`src/Code.ts` lines
286-318), in loop order: `dec_phase_1_len ∈ {2, 3}`, `high_phase_1_len ∈
[0, 7)`, `high_phase_3_len ∈ [0, 7 - high_phase_1_len)`, with probability
`0.346 / 2 / 7 / (7 - high_phase_1_len)`. -/
def patternZeroCells : List P0Cell :=
  ([2, 3] : List ℕ).flatMap (fun dec1 =>
    (List.range 7).flatMap (fun hp1 =>
      (List.range (7 - hp1)).map (fun hp3 =>
        ⟨dec1, hp1, hp3, 0.346 / 2 / 7 / ((7 - hp1 : ℕ) : ℚ)⟩)))

/-- Evaluate `generatePatternZeroWithLengths` on each grid cell in order,
propagating the first `throw` exactly as the JavaScript loop would. -/
def runPatternZeroCells (g0 g1 : ℚ) (given : ℕ → Option ℚ) :
    List P0Cell → Except String (List (Option Prediction))
  | [] => .ok []
  | c :: cs =>
    match generatePatternZeroWithLengths g0 g1 given c.hp1 c.dec1 (7 - c.hp1 - c.hp3) (5 - c.dec1) c.hp3
        (generateRates 0.6 0.8 0.04 0.1 c.dec1) (generateRates 0.6 0.8 0.04 0.1 (5 - c.dec1)) c.prob with
    | .error e => .error e
    | .ok p =>
      match runPatternZeroCells g0 g1 given cs with
      | .error e => .error e
      | .ok ps => .ok (p :: ps)

/-- `generatePatternZero` of `src/Code.ts`: enumerate the grid and merge
the surviving branches. -/
def generatePatternZero (g0 g1 : ℚ) (given : ℕ → Option ℚ) : Except String Prediction :=
  match runPatternZeroCells g0 g1 given patternZeroCells with
  | .error e => .error e
  | .ok ps => .ok (mergePredictions ps)

/-- One grid cell of `generatePatternOne`: a peak start and its share of
the pattern prior. -/
structure P1Cell where
  peakStart : ℕ
  prob : ℚ
deriving DecidableEq

/-- The parameter grid of `generatePatternOne` (`src/Code.ts` lines
320-332): `peak_start ∈ [3, 10)`, probability `0.248 / 7` each. -/
def patternOneCells : List P1Cell :=
  (List.range' 3 7).map (fun peakStart => ⟨peakStart, 0.248 / 7⟩)

/-- `generatePatternOne` of `src/Code.ts`. -/
def generatePatternOne (g0 g1 : ℚ) (given : ℕ → Option ℚ) : Prediction :=
  mergePredictions
    (patternOneCells.map (fun c =>
      generatePatternOneWithPeak g0 g1 given c.peakStart
        (generateRates 0.85 0.9 0.03 0.05 (c.peakStart - 2)) c.prob))

/-- `generatePatternTwo` of `src/Code.ts`: a single branch. -/
def generatePatternTwo (g0 g1 : ℚ) (given : ℕ → Option ℚ) : Option Prediction :=
  generatePatternTwoWithRates g0 g1 given (generateRates 0.85 0.9 0.03 0.05 12) 0.1475

/-- One grid cell of `generatePatternThree`: a peak start, a spike rate,
and their share of the pattern prior. -/
structure P3Cell where
  peakStart : ℕ
  spikeRate : ℚ
  prob : ℚ
deriving DecidableEq

/-- The parameter grid of `generatePatternThree` (`src/Code.ts` lines
343-360): `peak_start ∈ [2, 10)`, `spikeRate` from `1.4` to `2.001` in
steps of `0.01` (61 values), probability `0.2585 / 8 / 61` each. -/
def patternThreeCells : List P3Cell :=
  (List.range' 2 8).flatMap (fun peakStart =>
    (stepValues 1.4 2.001 0.01).map (fun spikeRate =>
      ⟨peakStart, spikeRate, 0.2585 / 8 / 61⟩))

/-- `generatePatternThree` of `src/Code.ts`. -/
def generatePatternThree (g0 g1 : ℚ) (given : ℕ → Option ℚ) : Prediction :=
  mergePredictions
    (patternThreeCells.map (fun c =>
      generatePatternThreeWithPeak g0 g1 given c.peakStart c.spikeRate
        (generateRates 0.4 0.9 0.03 0.05 (c.peakStart - 2))
        (generateRates 0.4 0.9 0.03 0.05 (9 - c.peakStart)) c.prob))

/-- Sum of the probabilities of a distribution
(`estimates.map(p => p.probability).reduce((a, b) => a + b, 0)`). -/
def sumProb (l : List Estimate) : ℚ :=
  (l.map Estimate.probability).sum

/-- Sum of the trend probabilities. -/
def sumTrendProb (l : List Trend) : ℚ :=
  (l.map Trend.probability).sum

/-- The renormalization step of `updateSheet` (`src/Code.ts` lines
148-158): each slot's probabilities, and the trend weights, are scaled by
the reciprocal of their total. -/
def normalizePrediction (p : Prediction) : Prediction :=
  { estimates :=
      p.estimates.map (fun es =>
        es.map (fun e => ⟨e.price, e.probability * (1 / sumProb es)⟩)),
    trends := p.trends.map (fun t => ⟨t.name, t.probability * (1 / sumTrendProb p.trends)⟩) }

/-- The prediction pipeline of `updateSheet` (`src/Code.ts` lines
134-158): sanitize the buy price (out-of-range means unknown), seed slots 0
and 1 with `buyPrice || 90` and `buyPrice || 110`, run the four pattern
enumerators, merge, and renormalize.  The `.error` fallback of pattern zero
is unreachable (`generatePatternZero_never_throws`). -/
def predict (buyPrice : Option ℚ) (given : ℕ → Option ℚ) : Prediction :=
  let bp : Option ℚ :=
    match buyPrice with
    | some b => if b < 90 ∨ 110 < b then none else some b
    | none => none
  let g0 := bp.getD 90
  let g1 := bp.getD 110
  let p0 : Prediction :=
    match generatePatternZero g0 g1 given with
    | .ok p => p
    | .error _ => ⟨[], []⟩
  normalizePrediction
    (mergePredictions
      [some p0, some (generatePatternOne g0 g1 given), generatePatternTwo g0 g1 given,
        some (generatePatternThree g0 g1 given)])

/-- Probability mass a slot distribution assigns to one price (the unique
map entry's probability when the price occurs). -/
def sumProbAt (l : List Estimate) (q : ℚ) : ℚ :=
  ((l.filter (fun e => decide (e.price = q))).map Estimate.probability).sum

/-- Probability mass a prediction assigns to `(slot, price)`. -/
def slotProb (p : Prediction) (slot : ℕ) (q : ℚ) : ℚ :=
  sumProbAt (p.estimates.getD slot []) q

/-- Probability mass a trend list assigns to one name. -/
def sumTrendProbAt (l : List Trend) (n : String) : ℚ :=
  ((l.filter (fun t => decide (t.name = n))).map Trend.probability).sum

/-- Probability mass a prediction assigns to a trend name. -/
def trendProb (p : Prediction) (n : String) : ℚ :=
  sumTrendProbAt p.trends n

/-- The candidate distribution a slot keeps when its observation is
unknown: the bounded phases feed their bounds to `priceRange`, the decaying
phases keep their computed estimates. -/
def slotCandidates (probability : ℚ) : SlotSpec → List Estimate
  | .bounded minPred maxPred => priceRange minPred maxPred probability
  | .fromEstimates es => es

/-- Probability mass an optional (possibly rejected) branch result assigns
to `(slot, price)`: a rejected branch contributes nothing. -/
def optSlotProb (p : Option Prediction) (slot : ℕ) (q : ℚ) : ℚ :=
  match p with
  | none => 0
  | some pr => slotProb pr slot q

/-- Probability mass an optional branch result assigns to a trend name. -/
def optTrendProb (p : Option Prediction) (n : String) : ℚ :=
  match p with
  | none => 0
  | some pr => trendProb pr n

/-! ### Association-map lemmas -/

theorem sumProbAt_nil (q : ℚ) : sumProbAt [] q = 0 := rfl

theorem sumProbAt_cons (e : Estimate) (l : List Estimate) (q : ℚ) :
    sumProbAt (e :: l) q = (if e.price = q then e.probability else 0) + sumProbAt l q := by
  by_cases h : e.price = q <;> simp [sumProbAt, List.filter_cons, h]

theorem sumProb_nil : sumProb [] = 0 := rfl

theorem sumProb_cons (e : Estimate) (l : List Estimate) :
    sumProb (e :: l) = e.probability + sumProb l := by
  simp [sumProb]

theorem sumProbAt_addToMap (m : List Estimate) (k v q : ℚ) :
    sumProbAt (addToMap m k v) q = sumProbAt m q + (if k = q then v else 0) := by
  induction m with
  | nil =>
    simp only [addToMap, sumProbAt_cons, sumProbAt_nil]
    by_cases h : k = q <;> simp [h]
  | cons e rest ih =>
    by_cases he : e.price = k
    · rw [addToMap, if_pos he]
      simp only [sumProbAt_cons, he]
      by_cases h : k = q <;> simp [h] <;> ring
    · simp only [addToMap, if_neg he, sumProbAt_cons, ih]
      ring

theorem sumProb_addToMap (m : List Estimate) (k v : ℚ) :
    sumProb (addToMap m k v) = sumProb m + v := by
  induction m with
  | nil => simp [addToMap, sumProb]
  | cons e rest ih =>
    by_cases he : e.price = k
    · simp only [addToMap, if_pos he, sumProb_cons]
      ring
    · simp only [addToMap, if_neg he, sumProb_cons, ih]
      ring

theorem length_addToMap_le (m : List Estimate) (k v : ℚ) :
    (addToMap m k v).length ≤ m.length + 1 := by
  induction m with
  | nil => simp [addToMap]
  | cons e rest ih =>
    by_cases he : e.price = k
    · rw [addToMap, if_pos he]
      simp
    · rw [addToMap, if_neg he]
      simp only [List.length_cons]
      omega

theorem price_mem_addToMap (m : List Estimate) (k v : ℚ) :
    ∀ e ∈ addToMap m k v, e.price = k ∨ ∃ x ∈ m, e.price = x.price := by
  induction m with
  | nil => simp [addToMap]
  | cons a rest ih =>
    intro e he
    by_cases ha : a.price = k
    · rw [addToMap, if_pos ha] at he
      rcases List.mem_cons.1 he with he | he
      · subst he; exact Or.inl ha
      · exact Or.inr ⟨e, List.mem_cons_of_mem _ he, rfl⟩
    · rw [addToMap, if_neg ha] at he
      rcases List.mem_cons.1 he with he | he
      · exact Or.inr ⟨a, List.mem_cons_self _ _, by rw [he]⟩
      · rcases ih e he with h | ⟨x, hx, hex⟩
        · exact Or.inl h
        · exact Or.inr ⟨x, List.mem_cons_of_mem _ hx, hex⟩

theorem allPos_addToMap (m : List Estimate) (k v : ℚ)
    (hm : ∀ e ∈ m, 0 < e.probability) (hv : 0 < v) :
    ∀ e ∈ addToMap m k v, 0 < e.probability := by
  induction m with
  | nil => simpa [addToMap] using hv
  | cons a rest ih =>
    intro e he
    by_cases ha : a.price = k
    · rw [addToMap, if_pos ha] at he
      rcases List.mem_cons.1 he with he | he
      · subst he
        exact add_pos (hm a (List.mem_cons_self _ _)) hv
      · exact hm e (List.mem_cons_of_mem _ he)
    · rw [addToMap, if_neg ha] at he
      rcases List.mem_cons.1 he with he | he
      · subst he; exact hm _ (List.mem_cons_self _ _)
      · exact ih (fun x hx => hm x (List.mem_cons_of_mem _ hx)) e he

/-! ### Trend-map lemmas -/

theorem sumTrendProbAt_nil (q : String) : sumTrendProbAt [] q = 0 := rfl

theorem sumTrendProbAt_cons (t : Trend) (l : List Trend) (q : String) :
    sumTrendProbAt (t :: l) q = (if t.name = q then t.probability else 0) + sumTrendProbAt l q := by
  by_cases h : t.name = q <;> simp [sumTrendProbAt, List.filter_cons, h]

theorem sumTrendProb_cons (t : Trend) (l : List Trend) :
    sumTrendProb (t :: l) = t.probability + sumTrendProb l := by
  simp [sumTrendProb]

theorem sumTrendProbAt_addToTrends (m : List Trend) (k : String) (v : ℚ) (q : String) :
    sumTrendProbAt (addToTrends m k v) q = sumTrendProbAt m q + (if k = q then v else 0) := by
  induction m with
  | nil =>
    simp only [addToTrends, sumTrendProbAt_cons, sumTrendProbAt_nil]
    by_cases h : k = q <;> simp [h]
  | cons t rest ih =>
    by_cases ht : t.name = k
    · rw [addToTrends, if_pos ht]
      simp only [sumTrendProbAt_cons, ht]
      by_cases h : k = q <;> simp [h] <;> ring
    · simp only [addToTrends, if_neg ht, sumTrendProbAt_cons, ih]
      ring

theorem allPos_addToTrends (m : List Trend) (k : String) (v : ℚ)
    (hm : ∀ t ∈ m, 0 < t.probability) (hv : 0 < v) :
    ∀ t ∈ addToTrends m k v, 0 < t.probability := by
  induction m with
  | nil => simpa [addToTrends] using hv
  | cons a rest ih =>
    intro t ht
    by_cases ha : a.name = k
    · rw [addToTrends, if_pos ha] at ht
      rcases List.mem_cons.1 ht with ht | ht
      · subst ht
        exact add_pos (hm a (List.mem_cons_self _ _)) hv
      · exact hm t (List.mem_cons_of_mem _ ht)
    · rw [addToTrends, if_neg ha] at ht
      rcases List.mem_cons.1 ht with ht | ht
      · subst ht; exact hm _ (List.mem_cons_self _ _)
      · exact ih (fun x hx => hm x (List.mem_cons_of_mem _ hx)) t ht

/-! ### Generic lemmas about folding `addToMap` over a list -/

theorem sumProbAt_foldl_addToMap {α : Type} (key val : α → ℚ) (l : List α) (m : List Estimate) (q : ℚ) :
    sumProbAt (l.foldl (fun m x => addToMap m (key x) (val x)) m) q =
      sumProbAt m q + (l.map (fun x => if key x = q then val x else 0)).sum := by
  induction l generalizing m with
  | nil => simp
  | cons x rest ih =>
    simp only [List.foldl_cons, List.map_cons, List.sum_cons, ih, sumProbAt_addToMap]
    ring

theorem sumProb_foldl_addToMap {α : Type} (key val : α → ℚ) (l : List α) (m : List Estimate) :
    sumProb (l.foldl (fun m x => addToMap m (key x) (val x)) m) =
      sumProb m + (l.map val).sum := by
  induction l generalizing m with
  | nil => simp
  | cons x rest ih =>
    simp only [List.foldl_cons, List.map_cons, List.sum_cons, ih, sumProb_addToMap]
    ring

theorem length_foldl_addToMap_le {α : Type} (key val : α → ℚ) (l : List α) (m : List Estimate) :
    (l.foldl (fun m x => addToMap m (key x) (val x)) m).length ≤ m.length + l.length := by
  induction l generalizing m with
  | nil => simp
  | cons x rest ih =>
    calc (rest.foldl (fun m x => addToMap m (key x) (val x)) (addToMap m (key x) (val x))).length
        ≤ (addToMap m (key x) (val x)).length + rest.length := ih _
      _ ≤ m.length + 1 + rest.length := by
          have := length_addToMap_le m (key x) (val x)
          omega
      _ = m.length + (x :: rest).length := by simp; omega

theorem price_mem_foldl_addToMap {α : Type} (key val : α → ℚ) (l : List α) (m : List Estimate) :
    ∀ e ∈ l.foldl (fun m x => addToMap m (key x) (val x)) m,
      (∃ x ∈ l, e.price = key x) ∨ ∃ y ∈ m, e.price = y.price := by
  induction l generalizing m with
  | nil => exact fun e he => Or.inr ⟨e, he, rfl⟩
  | cons x rest ih =>
    intro e he
    rcases ih (addToMap m (key x) (val x)) e he with ⟨y, hy, hey⟩ | ⟨y, hy, hey⟩
    · exact Or.inl ⟨y, List.mem_cons_of_mem _ hy, hey⟩
    · rcases price_mem_addToMap m (key x) (val x) y hy with h | ⟨z, hz, hyz⟩
      · exact Or.inl ⟨x, List.mem_cons_self _ _, hey.trans h⟩
      · exact Or.inr ⟨z, hz, hey.trans hyz⟩

theorem allPos_foldl_addToMap {α : Type} (key val : α → ℚ) (l : List α) :
    (∀ x ∈ l, 0 < val x) → ∀ m : List Estimate, (∀ e ∈ m, 0 < e.probability) →
      ∀ e ∈ l.foldl (fun m x => addToMap m (key x) (val x)) m, 0 < e.probability := by
  induction l with
  | nil => exact fun _ m hm => hm
  | cons x rest ih =>
    intro hl m hm
    exact ih (fun y hy => hl y (List.mem_cons_of_mem _ hy)) _
      (allPos_addToMap m (key x) (val x) hm (hl x (List.mem_cons_self _ _)))

theorem sumTrendProbAt_foldl_addToTrends {α : Type} (key : α → String) (val : α → ℚ)
    (l : List α) (m : List Trend) (q : String) :
    sumTrendProbAt (l.foldl (fun m x => addToTrends m (key x) (val x)) m) q =
      sumTrendProbAt m q + (l.map (fun x => if key x = q then val x else 0)).sum := by
  induction l generalizing m with
  | nil => simp
  | cons x rest ih =>
    simp only [List.foldl_cons, List.map_cons, List.sum_cons, ih, sumTrendProbAt_addToTrends]
    ring

theorem allPos_foldl_addToTrends {α : Type} (key : α → String) (val : α → ℚ) (l : List α) :
    (∀ x ∈ l, 0 < val x) → ∀ m : List Trend, (∀ t ∈ m, 0 < t.probability) →
      ∀ t ∈ l.foldl (fun m x => addToTrends m (key x) (val x)) m, 0 < t.probability := by
  induction l with
  | nil => exact fun _ m hm => hm
  | cons x rest ih =>
    intro hl m hm
    exact ih (fun y hy => hl y (List.mem_cons_of_mem _ hy)) _
      (allPos_addToTrends m (key x) (val x) hm (hl x (List.mem_cons_self _ _)))

/-- `sumProbAt` as a plain sum over the whole list. -/
theorem sumProbAt_eq_sum_map (l : List Estimate) (q : ℚ) :
    sumProbAt l q = (l.map (fun e => if e.price = q then e.probability else 0)).sum := by
  induction l with
  | nil => rfl
  | cons e rest ih => rw [sumProbAt_cons, ih, List.map_cons, List.sum_cons]

/-- `sumTrendProbAt` as a plain sum over the whole list. -/
theorem sumTrendProbAt_eq_sum_map (l : List Trend) (q : String) :
    sumTrendProbAt l q = (l.map (fun t => if t.name = q then t.probability else 0)).sum := by
  induction l with
  | nil => rfl
  | cons t rest ih => rw [sumTrendProbAt_cons, ih, List.map_cons, List.sum_cons]

/-! ### `stepValues` lemmas -/

theorem mem_stepValues {lo hi step v : ℚ} (h : v ∈ stepValues lo hi step) :
    ∃ k : ℕ, v = lo + (k : ℚ) * step := by
  simp only [stepValues, List.mem_map, List.mem_range] at h
  obtain ⟨k, _, rfl⟩ := h
  exact ⟨k, rfl⟩

theorem stepValues_le {lo hi step v : ℚ} (hstep : 0 < step) (h : v ∈ stepValues lo hi step) :
    v ≤ hi := by
  simp only [stepValues, List.mem_map, List.mem_range] at h
  obtain ⟨k, hk, rfl⟩ := h
  by_cases hlh : lo ≤ hi
  · rw [if_pos hlh] at hk
    have hk' : (k : ℤ) < Int.floor ((hi - lo) / step) + 1 := Int.lt_toNat.1 hk
    have hkq : (k : ℚ) ≤ (hi - lo) / step := by
      have h1 : ((k : ℤ) : ℚ) ≤ ((Int.floor ((hi - lo) / step) : ℤ) : ℚ) := by
        exact_mod_cast (by omega : (k : ℤ) ≤ Int.floor ((hi - lo) / step))
      simpa using h1.trans (Int.floor_le _)
    have : (k : ℚ) * step ≤ hi - lo := by
      rw [← le_div_iff₀ hstep]
      exact hkq
    linarith
  · rw [if_neg hlh] at hk
    omega

theorem le_stepValues {lo hi step v : ℚ} (hstep : 0 ≤ step) (h : v ∈ stepValues lo hi step) :
    lo ≤ v := by
  simp only [stepValues, List.mem_map, List.mem_range] at h
  obtain ⟨k, _, rfl⟩ := h
  have : (0 : ℚ) ≤ (k : ℚ) * step := mul_nonneg (Nat.cast_nonneg k) hstep
  linarith

/-! ### `priceRange` lemmas -/

theorem sum_map_const {α : Type} (l : List α) (c : ℚ) :
    (l.map (fun _ => c)).sum = (l.length : ℚ) * c := by
  induction l with
  | nil => simp
  | cons x rest ih => simp [ih]; ring

theorem sum_map_mul_left {α : Type} (l : List α) (c : ℚ) (f : α → ℚ) :
    (l.map (fun x => c * f x)).sum = c * (l.map f).sum := by
  induction l with
  | nil => simp
  | cons x rest ih => simp [ih]; ring

theorem stepValues_imp_le {lo hi step v : ℚ} (h : v ∈ stepValues lo hi step) : lo ≤ hi := by
  simp only [stepValues, List.mem_map, List.mem_range] at h
  obtain ⟨k, hk, _⟩ := h
  by_contra hlh
  rw [if_neg hlh] at hk
  omega

theorem mem_priceRange {minP maxP p : ℚ} {e : Estimate} (h : e ∈ priceRange minP maxP p) :
    minP ≤ maxP ∧ minP ≤ e.price ∧ e.price ≤ maxP ∧ e.probability = p / (maxP - minP + 1) := by
  obtain ⟨v, hv, rfl⟩ := List.mem_map.1 h
  exact ⟨stepValues_imp_le hv, le_stepValues (by norm_num) hv, stepValues_le (by norm_num) hv, rfl⟩

theorem allPos_priceRange {minP maxP p : ℚ} (hp : 0 < p) :
    ∀ e ∈ priceRange minP maxP p, 0 < e.probability := by
  intro e he
  obtain ⟨hle, _, _, hprob⟩ := mem_priceRange he
  rw [hprob]
  exact div_pos hp (by linarith)

/-- `priceRange` over integer bounds `min ≤ max`, in closed form. -/
theorem priceRange_int_eq (a b : ℤ) (p : ℚ) (hab : a ≤ b) :
    priceRange (a : ℚ) (b : ℚ) p =
      (List.range (b - a + 1).toNat).map
        (fun k : ℕ => ⟨(a : ℚ) + (k : ℚ), p / ((b : ℚ) - (a : ℚ) + 1)⟩) := by
  have hcond : ((a : ℚ) : ℚ) ≤ (b : ℚ) := by exact_mod_cast hab
  have hfloor : Int.floor (((b : ℚ) - (a : ℚ)) / 1) = b - a := by
    rw [div_one]
    have : (b : ℚ) - (a : ℚ) = ((b - a : ℤ) : ℚ) := by push_cast; ring
    rw [this, Int.floor_intCast]
  unfold priceRange stepValues
  rw [if_pos hcond, hfloor, List.map_map]
  congr 1
  funext k
  simp [mul_one]

/-- `priceRange v v p` collapses to the single entry `⟨v, p⟩`. -/
theorem priceRange_single (v p : ℚ) : priceRange v v p = [⟨v, p⟩] := by
  unfold priceRange stepValues
  rw [if_pos le_rfl]
  norm_num [List.range_succ]

theorem sumProb_priceRange_int (a b : ℤ) (p : ℚ) (hab : a ≤ b) :
    sumProb (priceRange (a : ℚ) (b : ℚ) p) = p := by
  rw [priceRange_int_eq a b p hab]
  unfold sumProb
  rw [List.map_map]
  have : (Estimate.probability ∘ fun k : ℕ => (⟨(a : ℚ) + (k : ℚ), p / ((b : ℚ) - (a : ℚ) + 1)⟩ : Estimate)) =
      fun _ : ℕ => p / ((b : ℚ) - (a : ℚ) + 1) := rfl
  rw [this, sum_map_const, List.length_range]
  have hlen : (((b - a + 1).toNat : ℕ) : ℚ) = (b : ℚ) - (a : ℚ) + 1 := by
    have h1 : ((b - a + 1).toNat : ℤ) = b - a + 1 := Int.toNat_of_nonneg (by omega)
    have : (((b - a + 1).toNat : ℕ) : ℚ) = ((b - a + 1 : ℤ) : ℚ) := by exact_mod_cast h1
    rw [this]; push_cast; ring
  rw [hlen]
  have hne : (b : ℚ) - (a : ℚ) + 1 ≠ 0 := by
    have : (1 : ℚ) ≤ (b : ℚ) - (a : ℚ) + 1 := by
      have : (0 : ℚ) ≤ (b : ℚ) - (a : ℚ) := by exact_mod_cast sub_nonneg.2 hab
      linarith
    linarith
  field_simp

/-! ### `multiplyEstimates` lemmas -/

theorem sumProbAt_multiplyEstimates_aux (a b : List Estimate) (m : List Estimate) (q : ℚ) :
    sumProbAt
        (a.foldl
          (fun ret aa =>
            b.foldl
              (fun ret bb => addToMap ret (ratCeil (aa.price * bb.price)) (aa.probability * bb.probability))
              ret)
          m) q =
      sumProbAt m q +
        (a.map (fun x =>
          (b.map (fun y =>
            if ratCeil (x.price * y.price) = q then x.probability * y.probability else 0)).sum)).sum := by
  induction a generalizing m with
  | nil => simp
  | cons x rest ih =>
    simp only [List.foldl_cons, List.map_cons, List.sum_cons, ih]
    rw [sumProbAt_foldl_addToMap (fun bb => ratCeil (x.price * bb.price))
      (fun bb => x.probability * bb.probability) b m q]
    ring

/-- `multiplyEstimates` assigns to each output price the sum, over all input
pairs whose rounded product is that price, of the probability products. -/
theorem sumProbAt_multiplyEstimates (a b : List Estimate) (q : ℚ) :
    sumProbAt (multiplyEstimates a b) q =
      (a.map (fun x =>
        (b.map (fun y =>
          if ratCeil (x.price * y.price) = q then x.probability * y.probability else 0)).sum)).sum := by
  unfold multiplyEstimates
  have := sumProbAt_multiplyEstimates_aux a b [] q
  rwa [sumProbAt_nil, zero_add] at this

theorem sumProb_multiplyEstimates_aux (a b : List Estimate) (m : List Estimate) :
    sumProb
        (a.foldl
          (fun ret aa =>
            b.foldl
              (fun ret bb => addToMap ret (ratCeil (aa.price * bb.price)) (aa.probability * bb.probability))
              ret)
          m) =
      sumProb m + sumProb a * sumProb b := by
  induction a generalizing m with
  | nil => simp [sumProb]
  | cons x rest ih =>
    simp only [List.foldl_cons, ih, sumProb_cons]
    rw [sumProb_foldl_addToMap (fun bb => ratCeil (x.price * bb.price))
      (fun bb => x.probability * bb.probability) b m]
    rw [sum_map_mul_left b x.probability Estimate.probability]
    unfold sumProb
    ring

/-- Total mass of `multiplyEstimates a b` is `sum(a) * sum(b)`. -/
theorem sumProb_multiplyEstimates (a b : List Estimate) :
    sumProb (multiplyEstimates a b) = sumProb a * sumProb b := by
  have := sumProb_multiplyEstimates_aux a b []
  simpa [multiplyEstimates, sumProb] using this

theorem length_multiplyEstimates_aux (a b : List Estimate) (m : List Estimate) :
    (a.foldl
        (fun ret aa =>
          b.foldl
            (fun ret bb => addToMap ret (ratCeil (aa.price * bb.price)) (aa.probability * bb.probability))
            ret)
        m).length ≤ m.length + a.length * b.length := by
  induction a generalizing m with
  | nil => simp
  | cons x rest ih =>
    simp only [List.foldl_cons, List.length_cons]
    have h2 := length_foldl_addToMap_le (fun bb => ratCeil (x.price * bb.price))
      (fun bb => x.probability * bb.probability) b m
    refine le_trans (ih _) (le_trans (Nat.add_le_add_right h2 _) (le_of_eq ?_))
    ring

/-- `multiplyEstimates a b` has at most `|a| * |b|` entries. -/
theorem length_multiplyEstimates (a b : List Estimate) :
    (multiplyEstimates a b).length ≤ a.length * b.length := by
  have := length_multiplyEstimates_aux a b []
  simpa [multiplyEstimates] using this

theorem price_mem_multiplyEstimates_aux (a b : List Estimate) (m : List Estimate) :
    ∀ e ∈ a.foldl
        (fun ret aa =>
          b.foldl
            (fun ret bb => addToMap ret (ratCeil (aa.price * bb.price)) (aa.probability * bb.probability))
            ret)
        m,
      (∃ x ∈ a, ∃ y ∈ b, e.price = ratCeil (x.price * y.price)) ∨ ∃ z ∈ m, e.price = z.price := by
  induction a generalizing m with
  | nil => exact fun e he => Or.inr ⟨e, he, rfl⟩
  | cons x rest ih =>
    intro e he
    simp only [List.foldl_cons] at he
    rcases ih _ e he with ⟨x', hx', y, hy, hexy⟩ | ⟨z, hz, hez⟩
    · exact Or.inl ⟨x', List.mem_cons_of_mem _ hx', y, hy, hexy⟩
    · rcases price_mem_foldl_addToMap (fun bb => ratCeil (x.price * bb.price))
          (fun bb => x.probability * bb.probability) b m z hz with ⟨y, hy, hzy⟩ | ⟨w, hw, hzw⟩
      · exact Or.inl ⟨x, List.mem_cons_self _ _, y, hy, hez.trans hzy⟩
      · exact Or.inr ⟨w, hw, hez.trans hzw⟩

/-- Every price of `multiplyEstimates a b` is the rounded-up product of a
pair of input prices. -/
theorem price_mem_multiplyEstimates (a b : List Estimate) :
    ∀ e ∈ multiplyEstimates a b, ∃ x ∈ a, ∃ y ∈ b, e.price = ratCeil (x.price * y.price) := by
  intro e he
  rcases price_mem_multiplyEstimates_aux a b [] e he with h | ⟨z, hz, _⟩
  · exact h
  · simp at hz

theorem allPos_multiplyEstimates_aux (a b : List Estimate) :
    (∀ e ∈ a, 0 < e.probability) → (∀ e ∈ b, 0 < e.probability) →
      ∀ m : List Estimate, (∀ e ∈ m, 0 < e.probability) →
        ∀ e ∈ a.foldl
            (fun ret aa =>
              b.foldl
                (fun ret bb => addToMap ret (ratCeil (aa.price * bb.price)) (aa.probability * bb.probability))
                ret)
            m, 0 < e.probability := by
  induction a with
  | nil => exact fun _ _ m hm => hm
  | cons x rest ih =>
    intro ha hb m hm
    simp only [List.foldl_cons]
    exact ih (fun e he => ha e (List.mem_cons_of_mem _ he)) hb _
      (allPos_foldl_addToMap (fun bb => ratCeil (x.price * bb.price))
        (fun bb => x.probability * bb.probability) b
        (fun y hy => mul_pos (ha x (List.mem_cons_self _ _)) (hb y hy)) m hm)

theorem allPos_multiplyEstimates (a b : List Estimate)
    (ha : ∀ e ∈ a, 0 < e.probability) (hb : ∀ e ∈ b, 0 < e.probability) :
    ∀ e ∈ multiplyEstimates a b, 0 < e.probability := by
  intro e he
  exact allPos_multiplyEstimates_aux a b ha hb [] (by simp) e he

/-! ### Claim C8 and C9 -/

/-- C8: for every pair of distributions `a` and `b`, `multiplyEstimates`
assigns to every output price `q` the sum of `x.probability * y.probability`
over exactly the pairs `(x ∈ a, y ∈ b)` with `ceil(x.price * y.price) = q`
(equal resulting prices accumulate into one entry); every output price is of
that form; the total probability mass equals `sum(a) * sum(b)`; and the
entry count is at most `|a| * |b|`. -/
theorem claim_C8_multiplyEstimates_spec (a b : List Estimate) :
    (∀ q : ℚ,
      sumProbAt (multiplyEstimates a b) q =
        (a.map (fun x =>
          (b.map (fun y =>
            if ratCeil (x.price * y.price) = q then x.probability * y.probability else 0)).sum)).sum)
    ∧ (∀ e ∈ multiplyEstimates a b, ∃ x ∈ a, ∃ y ∈ b, e.price = ratCeil (x.price * y.price))
    ∧ sumProb (multiplyEstimates a b) = sumProb a * sumProb b
    ∧ (multiplyEstimates a b).length ≤ a.length * b.length :=
  ⟨fun q => sumProbAt_multiplyEstimates a b q,
    price_mem_multiplyEstimates a b,
    sumProb_multiplyEstimates a b,
    length_multiplyEstimates a b⟩

/-- C9: for integers `min ≤ max` and any probability `p`, `priceRange`
returns exactly `max - min + 1` entries, the entry of index `k` being the
integer price `min + k` weighted `p / (max - min + 1)`, and the entries sum
to `p`. -/
theorem claim_C9_priceRange_uniform (a b : ℤ) (p : ℚ) (hab : a ≤ b) :
    priceRange (a : ℚ) (b : ℚ) p =
        (List.range (b - a + 1).toNat).map
          (fun k : ℕ => ⟨(a : ℚ) + (k : ℚ), p / ((b : ℚ) - (a : ℚ) + 1)⟩)
    ∧ (priceRange (a : ℚ) (b : ℚ) p).length = (b - a + 1).toNat
    ∧ (∀ e ∈ priceRange (a : ℚ) (b : ℚ) p, e.probability = p / ((b : ℚ) - (a : ℚ) + 1))
    ∧ sumProb (priceRange (a : ℚ) (b : ℚ) p) = p := by
  refine ⟨priceRange_int_eq a b p hab, ?_, ?_, sumProb_priceRange_int a b p hab⟩
  · rw [priceRange_int_eq a b p hab, List.length_map, List.length_range]
  · intro e he
    exact (mem_priceRange he).2.2.2

/-- Witness for C9 at the purchase-price prior `priceRange(90, 110, 1)`:
the hypothesis `90 ≤ 110` holds and the 21 entries each carry `1/21`. -/
theorem claim_C9_priceRange_uniform_witness :
    priceRange ((90 : ℤ) : ℚ) ((110 : ℤ) : ℚ) 1 =
        (List.range ((110 : ℤ) - 90 + 1).toNat).map
          (fun k : ℕ => ⟨((90 : ℤ) : ℚ) + (k : ℚ), 1 / (((110 : ℤ) : ℚ) - ((90 : ℤ) : ℚ) + 1)⟩)
    ∧ (priceRange ((90 : ℤ) : ℚ) ((110 : ℤ) : ℚ) 1).length = ((110 : ℤ) - 90 + 1).toNat
    ∧ (∀ e ∈ priceRange ((90 : ℤ) : ℚ) ((110 : ℤ) : ℚ) 1,
        e.probability = 1 / (((110 : ℤ) : ℚ) - ((90 : ℤ) : ℚ) + 1))
    ∧ sumProb (priceRange ((90 : ℤ) : ℚ) ((110 : ℤ) : ℚ) 1) = 1 :=
  claim_C9_priceRange_uniform 90 110 1 (by norm_num)

/-! ### `nextRates`, `ratesChain` and `generateRates` lemmas -/

theorem sumProbAt_nextRates (incrMin incrMax rateInterval cp : ℚ) (prior : List Estimate) (q : ℚ) :
    sumProbAt (nextRates incrMin incrMax rateInterval cp prior) q =
      (prior.map (fun r =>
        ((stepValues incrMin (incrMax + rateInterval / 10) rateInterval).map
          (fun c => if r.price - c = q then r.probability * cp else 0)).sum)).sum := by
  unfold nextRates
  generalize stepValues incrMin (incrMax + rateInterval / 10) rateInterval = changes
  have aux : ∀ (l : List Estimate) (m : List Estimate),
      sumProbAt
          (l.foldl
            (fun period priorRate =>
              changes.foldl
                (fun period rateChange =>
                  addToMap period (priorRate.price - rateChange) (priorRate.probability * cp))
                period)
            m) q =
        sumProbAt m q +
          (l.map (fun r => (changes.map (fun c => if r.price - c = q then r.probability * cp else 0)).sum)).sum := by
    intro l
    induction l with
    | nil => simp
    | cons r rest ih =>
      intro m
      simp only [List.foldl_cons, List.map_cons, List.sum_cons, ih]
      rw [sumProbAt_foldl_addToMap (fun c => r.price - c) (fun _ => r.probability * cp) changes m q]
      ring
  have := aux prior []
  rwa [sumProbAt_nil, zero_add] at this

theorem price_mem_nextRates (incrMin incrMax rateInterval cp : ℚ) (prior : List Estimate) :
    ∀ e ∈ nextRates incrMin incrMax rateInterval cp prior,
      ∃ r ∈ prior, ∃ c ∈ stepValues incrMin (incrMax + rateInterval / 10) rateInterval,
        e.price = r.price - c := by
  unfold nextRates
  generalize stepValues incrMin (incrMax + rateInterval / 10) rateInterval = changes
  have aux : ∀ (l : List Estimate) (m : List Estimate),
      ∀ e ∈ l.foldl
          (fun period priorRate =>
            changes.foldl
              (fun period rateChange =>
                addToMap period (priorRate.price - rateChange) (priorRate.probability * cp))
              period)
          m,
        (∃ r ∈ l, ∃ c ∈ changes, e.price = r.price - c) ∨ ∃ z ∈ m, e.price = z.price := by
    intro l
    induction l with
    | nil => exact fun m e he => Or.inr ⟨e, he, rfl⟩
    | cons r rest ih =>
      intro m e he
      simp only [List.foldl_cons] at he
      rcases ih _ e he with ⟨r', hr', c, hc, hec⟩ | ⟨z, hz, hez⟩
      · exact Or.inl ⟨r', List.mem_cons_of_mem _ hr', c, hc, hec⟩
      · rcases price_mem_foldl_addToMap (fun c => r.price - c) (fun _ => r.probability * cp)
            changes m z hz with ⟨c, hc, hzc⟩ | ⟨w, hw, hzw⟩
        · exact Or.inl ⟨r, List.mem_cons_self _ _, c, hc, hez.trans hzc⟩
        · exact Or.inr ⟨w, hw, hez.trans hzw⟩
  intro e he
  rcases aux prior [] e he with h | ⟨z, hz, _⟩
  · exact h
  · simp at hz

theorem allPos_nextRates (incrMin incrMax rateInterval cp : ℚ) (hcp : 0 < cp)
    (prior : List Estimate) (hprior : ∀ e ∈ prior, 0 < e.probability) :
    ∀ e ∈ nextRates incrMin incrMax rateInterval cp prior, 0 < e.probability := by
  unfold nextRates
  generalize stepValues incrMin (incrMax + rateInterval / 10) rateInterval = changes
  have aux : ∀ (l : List Estimate), (∀ e ∈ l, 0 < e.probability) →
      ∀ m : List Estimate, (∀ e ∈ m, 0 < e.probability) →
        ∀ e ∈ l.foldl
            (fun period priorRate =>
              changes.foldl
                (fun period rateChange =>
                  addToMap period (priorRate.price - rateChange) (priorRate.probability * cp))
                period)
            m, 0 < e.probability := by
    intro l
    induction l with
    | nil => exact fun _ m hm => hm
    | cons r rest ih =>
      intro hl m hm
      simp only [List.foldl_cons]
      exact ih (fun e he => hl e (List.mem_cons_of_mem _ he)) _
        (allPos_foldl_addToMap (fun c => r.price - c) (fun _ => r.probability * cp) changes
          (fun c _ => mul_pos (hl r (List.mem_cons_self _ _)) hcp) m hm)
  exact aux prior hprior [] (by simp)

theorem ratesChain_invariant {P : List Estimate → Prop} (f : List Estimate → List Estimate)
    (hf : ∀ d, P d → P (f d)) :
    ∀ (n : ℕ) (d0 : List Estimate), P d0 → ∀ d ∈ ratesChain f n d0, P d := by
  intro n
  induction n with
  | zero =>
    intro d0 h0 d hd
    simp only [ratesChain, List.mem_singleton] at hd
    exact hd ▸ h0
  | succ n ih =>
    intro d0 h0 d hd
    simp only [ratesChain, List.mem_cons] at hd
    rcases hd with rfl | hd
    · exact h0
    · exact ih (f d0) (hf d0 h0) d hd

theorem ratesChain_getD_zero (f : List Estimate → List Estimate) (n : ℕ) (d0 : List Estimate) :
    (ratesChain f n d0).getD 0 [] = d0 := by
  cases n <;> rfl

theorem ratesChain_getD_succ (f : List Estimate → List Estimate) :
    ∀ (n : ℕ) (d0 : List Estimate) (i : ℕ), i < n →
      (ratesChain f n d0).getD (i + 1) [] = f ((ratesChain f n d0).getD i []) := by
  intro n
  induction n with
  | zero => omega
  | succ n ih =>
    intro d0 i hi
    cases i with
    | zero =>
      show (ratesChain f n (f d0)).getD 0 [] = f d0
      exact ratesChain_getD_zero f n (f d0)
    | succ j =>
      show (ratesChain f n (f d0)).getD (j + 1) [] = f ((ratesChain f n (f d0)).getD j [])
      exact ih (f d0) j (by omega)

/-- Every rate stored in any day of `generateRates` lies on the `1/100`
grid, provided the start and increment minima do. -/
theorem generateRates_grid (startMin startMax incrMin incrMax : ℚ) (len : ℕ)
    (h1 : ∃ k : ℤ, startMin = k / 100) (h2 : ∃ k : ℤ, incrMin = k / 100) :
    ∀ day ∈ generateRates startMin startMax incrMin incrMax len,
      ∀ e ∈ day, ∃ k : ℤ, e.price = k / 100 := by
  obtain ⟨sm, hsm⟩ := h1
  obtain ⟨im, him⟩ := h2
  unfold generateRates
  by_cases hlen : len = 0
  · simp [hlen]
  · rw [if_neg hlen]
    intro day hday
    refine @ratesChain_invariant (fun d => ∀ e ∈ d, ∃ k : ℤ, e.price = k / 100) _ ?_ (len - 1) _ ?_ day hday
    · intro d hd e he
      obtain ⟨r, hr, c, hc, hec⟩ := price_mem_nextRates _ _ _ _ d e he
      obtain ⟨kr, hkr⟩ := hd r hr
      obtain ⟨j, hj⟩ := mem_stepValues hc
      refine ⟨kr - (im + j), ?_⟩
      rw [hec, hkr, hj, him]
      push_cast
      norm_num
      ring
    · intro e he
      obtain ⟨v, hv, rfl⟩ := List.mem_map.1 he
      obtain ⟨j, hj⟩ := mem_stepValues hv
      refine ⟨sm + j, ?_⟩
      rw [hj, hsm]
      push_cast
      norm_num
      ring

theorem generateRates_day_succ (sm sM im iM : ℚ) (len i : ℕ) (hi : i + 1 < len) :
    (generateRates sm sM im iM len).getD (i + 1) [] =
      nextRates im iM 0.01 (1 / ((round ((iM - im) / (0.01 : ℚ)) : ℤ) + 1 : ℚ))
        ((generateRates sm sM im iM len).getD i []) := by
  unfold generateRates
  rw [if_neg (by omega)]
  exact ratesChain_getD_succ _ (len - 1) _ i (by omega)

/-- C6: day `i+1` of the rate chain is obtained from day `i` by producing
`newRate = rate - stepValue` with probability `P(rate) * P(stepValue)` for
every (rate, step) pair and accumulating entries by exact rate value; over
the exact arithmetic of the embedding every rate stored in any day lies on
the `0.01` grid (equivalently, fixed-point rounding to the granularity is
the identity on every stored key), provided the start and increment minima
lie on the grid. -/
theorem claim_C6_generateRates_fixed_point (startMin startMax incrMin incrMax : ℚ) (len : ℕ)
    (h1 : ∃ k : ℤ, startMin = k / 100) (h2 : ∃ k : ℤ, incrMin = k / 100) :
    (∀ (cp : ℚ) (prior : List Estimate) (q : ℚ),
      sumProbAt (nextRates incrMin incrMax 0.01 cp prior) q =
        (prior.map (fun r =>
          ((stepValues incrMin (incrMax + 0.01 / 10) 0.01).map
            (fun c => if r.price - c = q then r.probability * cp else 0)).sum)).sum)
    ∧ (∀ i : ℕ, i + 1 < len →
        (generateRates startMin startMax incrMin incrMax len).getD (i + 1) [] =
          nextRates incrMin incrMax 0.01
            (1 / ((round ((incrMax - incrMin) / (0.01 : ℚ)) : ℤ) + 1 : ℚ))
            ((generateRates startMin startMax incrMin incrMax len).getD i []))
    ∧ (∀ day ∈ generateRates startMin startMax incrMin incrMax len, ∀ e ∈ day,
        ∃ k : ℤ, e.price = (k : ℚ) / 100 ∧ ((round (e.price * 100) : ℤ) : ℚ) / 100 = e.price) := by
  refine ⟨fun cp prior q => sumProbAt_nextRates incrMin incrMax 0.01 cp prior q,
    fun i hi => generateRates_day_succ startMin startMax incrMin incrMax len i hi, ?_⟩
  intro day hday e he
  obtain ⟨k, hk⟩ := generateRates_grid startMin startMax incrMin incrMax len h1 h2 day hday e he
  refine ⟨k, hk, ?_⟩
  have h100 : e.price * 100 = (k : ℚ) := by rw [hk]; field_simp
  rw [h100, round_intCast, hk]

/-- Witness for C6 at the parameters of the Random pattern's decay phase,
`generateRates(0.6, 0.8, 0.04, 0.1, 3)`. -/
theorem claim_C6_generateRates_fixed_point_witness :
    (∀ (cp : ℚ) (prior : List Estimate) (q : ℚ),
      sumProbAt (nextRates 0.04 0.1 0.01 cp prior) q =
        (prior.map (fun r =>
          ((stepValues 0.04 (0.1 + 0.01 / 10) 0.01).map
            (fun c => if r.price - c = q then r.probability * cp else 0)).sum)).sum)
    ∧ (∀ i : ℕ, i + 1 < 3 →
        (generateRates 0.6 0.8 0.04 0.1 3).getD (i + 1) [] =
          nextRates 0.04 0.1 0.01
            (1 / ((round (((0.1 : ℚ) - 0.04) / (0.01 : ℚ)) : ℤ) + 1 : ℚ))
            ((generateRates 0.6 0.8 0.04 0.1 3).getD i []))
    ∧ (∀ day ∈ generateRates 0.6 0.8 0.04 0.1 3, ∀ e ∈ day,
        ∃ k : ℤ, e.price = (k : ℚ) / 100 ∧ ((round (e.price * 100) : ℤ) : ℚ) / 100 = e.price) :=
  claim_C6_generateRates_fixed_point 0.6 0.8 0.04 0.1 3
    ⟨60, by norm_num⟩ ⟨4, by norm_num⟩

/-! ### Merge lemmas -/

theorem sumProbAt_mergeSlot (acc src : List Estimate) (q : ℚ) :
    sumProbAt (mergeSlot acc src) q = sumProbAt acc q + sumProbAt src q := by
  unfold mergeSlot
  rw [sumProbAt_foldl_addToMap Estimate.price Estimate.probability src acc q,
    sumProbAt_eq_sum_map src q]

theorem sumTrendProbAt_mergeTrends (acc src : List Trend) (q : String) :
    sumTrendProbAt (mergeTrends acc src) q = sumTrendProbAt acc q + sumTrendProbAt src q := by
  unfold mergeTrends
  rw [sumTrendProbAt_foldl_addToTrends Trend.name Trend.probability src acc q,
    sumTrendProbAt_eq_sum_map src q]

theorem sumProbAt_mergeSlotLists (src : List (List Estimate)) :
    ∀ (acc : List (List Estimate)) (i : ℕ) (q : ℚ),
      sumProbAt ((mergeSlotLists acc src).getD i []) q =
        sumProbAt (acc.getD i []) q + sumProbAt (src.getD i []) q := by
  induction src with
  | nil =>
    intro acc i q
    cases acc <;> simp [mergeSlotLists, sumProbAt_nil]
  | cons s ss ih =>
    intro acc i q
    cases acc with
    | nil =>
      show sumProbAt ((mergeSlot [] s :: mergeSlotLists [] ss).getD i []) q = _
      cases i with
      | zero => simp [sumProbAt_mergeSlot]
      | succ j => simpa using ih [] j q
    | cons a as =>
      show sumProbAt ((mergeSlot a s :: mergeSlotLists as ss).getD i []) q = _
      cases i with
      | zero => simp [sumProbAt_mergeSlot]
      | succ j => simpa using ih as j q

/-- The merged probability of `(slot, price)` is the sum of the branches'
probabilities there; rejected branches contribute nothing. -/
theorem slotProb_mergePredictions (preds : List (Option Prediction)) (slot : ℕ) (q : ℚ) :
    slotProb (mergePredictions preds) slot q =
      (preds.map (fun p => optSlotProb p slot q)).sum := by
  suffices h : ∀ (acc : Prediction),
      sumProbAt ((preds.foldl
          (fun acc p =>
            match p with
            | none => acc
            | some pr => ⟨mergeSlotLists acc.estimates pr.estimates, mergeTrends acc.trends pr.trends⟩)
          acc).estimates.getD slot []) q =
        sumProbAt (acc.estimates.getD slot []) q + (preds.map (fun p => optSlotProb p slot q)).sum by
    have := h ⟨[], []⟩
    simpa [mergePredictions, slotProb, sumProbAt_nil] using this
  induction preds with
  | nil => simp
  | cons p ps ih =>
    intro acc
    cases p with
    | none => simpa [optSlotProb] using ih acc
    | some pr =>
      simp only [List.foldl_cons, List.map_cons, List.sum_cons, ih]
      rw [sumProbAt_mergeSlotLists pr.estimates acc.estimates slot q]
      simp [optSlotProb, slotProb]
      ring

/-- The merged probability of a trend name is the sum of the branches'
probabilities for it. -/
theorem trendProb_mergePredictions (preds : List (Option Prediction)) (n : String) :
    trendProb (mergePredictions preds) n =
      (preds.map (fun p => optTrendProb p n)).sum := by
  suffices h : ∀ (acc : Prediction),
      sumTrendProbAt ((preds.foldl
          (fun acc p =>
            match p with
            | none => acc
            | some pr => ⟨mergeSlotLists acc.estimates pr.estimates, mergeTrends acc.trends pr.trends⟩)
          acc).trends) n =
        sumTrendProbAt acc.trends n + (preds.map (fun p => optTrendProb p n)).sum by
    have := h ⟨[], []⟩
    simpa [mergePredictions, trendProb, sumTrendProbAt_nil] using this
  induction preds with
  | nil => simp
  | cons p ps ih =>
    intro acc
    cases p with
    | none => simpa [optTrendProb] using ih acc
    | some pr =>
      simp only [List.foldl_cons, List.map_cons, List.sum_cons, ih]
      rw [sumTrendProbAt_mergeTrends acc.trends pr.trends n]
      simp [optTrendProb, trendProb]
      ring

/-! ### Claim C5 -/

/-- C5: `mergePredictions` is commutative and associative over exact
arithmetic: permuting the branch list (rejected branches included) leaves
every `(slot, price)` probability and every trend-name probability
unchanged, and merging any regrouping of the list through sub-merges gives
the same per-key probabilities as merging the flattened list. -/
theorem claim_C5_mergePredictions_comm_assoc :
    (∀ l1 l2 : List (Option Prediction), l1.Perm l2 →
      (∀ (slot : ℕ) (q : ℚ),
        slotProb (mergePredictions l1) slot q = slotProb (mergePredictions l2) slot q)
      ∧ (∀ n : String, trendProb (mergePredictions l1) n = trendProb (mergePredictions l2) n))
    ∧ (∀ ll : List (List (Option Prediction)),
      (∀ (slot : ℕ) (q : ℚ),
        slotProb (mergePredictions (ll.map (fun l => some (mergePredictions l)))) slot q =
          slotProb (mergePredictions ll.flatten) slot q)
      ∧ (∀ n : String,
        trendProb (mergePredictions (ll.map (fun l => some (mergePredictions l)))) n =
          trendProb (mergePredictions ll.flatten) n)) := by
  constructor
  · intro l1 l2 hperm
    constructor
    · intro slot q
      rw [slotProb_mergePredictions, slotProb_mergePredictions]
      exact (hperm.map (fun p => optSlotProb p slot q)).sum_eq
    · intro n
      rw [trendProb_mergePredictions, trendProb_mergePredictions]
      exact (hperm.map (fun p => optTrendProb p n)).sum_eq
  · intro ll
    constructor
    · intro slot q
      rw [slotProb_mergePredictions, slotProb_mergePredictions, List.map_flatten,
        List.sum_flatten, List.map_map, List.map_map]
      refine congrArg List.sum (List.map_congr_left ?_)
      intro l _
      simp [Function.comp, optSlotProb, slotProb_mergePredictions]
    · intro n
      rw [trendProb_mergePredictions, trendProb_mergePredictions, List.map_flatten,
        List.sum_flatten, List.map_map, List.map_map]
      refine congrArg List.sum (List.map_congr_left ?_)
      intro l _
      simp [Function.comp, optTrendProb, trendProb_mergePredictions]

/-- Witness for C5: swapping two concrete branches leaves the merged mass
at slot 0, price 1 and at trend name Random unchanged. -/
theorem claim_C5_mergePredictions_comm_assoc_witness :
    slotProb (mergePredictions
        [some ⟨[[⟨1, 1/2⟩]], [⟨"Random", 1/2⟩]⟩, some ⟨[[⟨2, 1/3⟩]], [⟨"Decreasing", 1/3⟩]⟩]) 0 1 =
      slotProb (mergePredictions
        [some ⟨[[⟨2, 1/3⟩]], [⟨"Decreasing", 1/3⟩]⟩, some ⟨[[⟨1, 1/2⟩]], [⟨"Random", 1/2⟩]⟩]) 0 1
    ∧ trendProb (mergePredictions
        [some ⟨[[⟨1, 1/2⟩]], [⟨"Random", 1/2⟩]⟩, some ⟨[[⟨2, 1/3⟩]], [⟨"Decreasing", 1/3⟩]⟩]) "Random" =
      trendProb (mergePredictions
        [some ⟨[[⟨2, 1/3⟩]], [⟨"Decreasing", 1/3⟩]⟩, some ⟨[[⟨1, 1/2⟩]], [⟨"Random", 1/2⟩]⟩]) "Random" :=
  ⟨(claim_C5_mergePredictions_comm_assoc.1 _ _ (List.Perm.swap _ _ _)).1 0 1,
    (claim_C5_mergePredictions_comm_assoc.1 _ _ (List.Perm.swap _ _ _)).2 "Random"⟩

/-! ### `applySlot` and `buildSlots` lemmas -/

theorem applySlot_some_out {v : ℚ} {s : SlotSpec} (prob : ℚ) (h : outOfBoundsB v s = true) :
    applySlot (some v) prob s = none := by
  simp [applySlot, h]

theorem applySlot_none_eq (prob : ℚ) (s : SlotSpec) :
    applySlot none prob s = some (slotCandidates prob s) := by
  cases s <;> rfl

theorem applySlot_some_eq_some {v : ℚ} {s : SlotSpec} {prob : ℚ} {l : List Estimate}
    (h : applySlot (some v) prob s = some l) :
    outOfBoundsB v s = false ∧ l = [⟨v, prob⟩] := by
  by_cases hb : outOfBoundsB v s
  · simp [applySlot, hb] at h
  · simp only [applySlot, hb, Bool.false_eq_true, if_false, Option.some.injEq] at h
    exact ⟨by simpa using hb, h ▸ (priceRange_single v prob).symm ▸ rfl⟩

theorem buildSlots_eq_none (f : ℕ → Option (List Estimate)) :
    ∀ (n lo k : ℕ), k < n → f (lo + k) = none → buildSlots f lo n = none := by
  intro n
  induction n with
  | zero => omega
  | succ n ih =>
    intro lo k hk hf
    cases k with
    | zero =>
      simp only [Nat.add_zero] at hf
      simp [buildSlots, hf]
    | succ j =>
      unfold buildSlots
      cases hfl : f lo with
      | none => rfl
      | some e =>
        rw [ih (lo + 1) j (by omega) (by rw [show lo + 1 + j = lo + (j + 1) by omega]; exact hf)]

theorem buildSlots_some_length (f : ℕ → Option (List Estimate)) :
    ∀ (n lo : ℕ) (l : List (List Estimate)), buildSlots f lo n = some l → l.length = n := by
  intro n
  induction n with
  | zero =>
    intro lo l h
    simp only [buildSlots, Option.some.injEq] at h
    simp [← h]
  | succ n ih =>
    intro lo l h
    unfold buildSlots at h
    cases hfl : f lo with
    | none => rw [hfl] at h; exact absurd h (by simp)
    | some e =>
      rw [hfl] at h
      cases hbl : buildSlots f (lo + 1) n with
      | none => rw [hbl] at h; exact absurd h (by simp)
      | some rest =>
        rw [hbl] at h
        simp only [Option.some.injEq] at h
        rw [← h, List.length_cons, ih (lo + 1) rest hbl]

theorem buildSlots_some_get (f : ℕ → Option (List Estimate)) :
    ∀ (n lo : ℕ) (l : List (List Estimate)), buildSlots f lo n = some l →
      ∀ k < n, f (lo + k) = some (l.getD k []) := by
  intro n
  induction n with
  | zero => omega
  | succ n ih =>
    intro lo l h k hk
    unfold buildSlots at h
    cases hfl : f lo with
    | none => rw [hfl] at h; exact absurd h (by simp)
    | some e =>
      rw [hfl] at h
      cases hbl : buildSlots f (lo + 1) n with
      | none => rw [hbl] at h; exact absurd h (by simp)
      | some rest =>
        rw [hbl] at h
        simp only [Option.some.injEq] at h
        cases k with
        | zero => rw [← h]; simpa using hfl
        | succ j =>
          rw [← h]
          simp only [List.getD_cons_succ]
          rw [show lo + (j + 1) = lo + 1 + j by omega]
          exact ih (lo + 1) rest hbl j (by omega)

/-- Rejection for a slot builder: a known observation failing the bound
test of its slot kills the whole build. -/
theorem buildSlots_applySlot_reject (S : ℕ → SlotSpec) (given : ℕ → Option ℚ) (prob : ℚ)
    (lo n i : ℕ) (v : ℚ) (hlo : lo ≤ i) (hin : i < lo + n)
    (hobs : given i = some v) (hout : outOfBoundsB v (S i) = true) :
    buildSlots (fun j => applySlot (given j) prob (S j)) lo n = none := by
  refine buildSlots_eq_none _ n lo (i - lo) (by omega) ?_
  rw [show lo + (i - lo) = i by omega, hobs]
  exact applySlot_some_out prob hout

/-- Characterization of a successful slot build: observed in-bounds slots
collapse to the single observed price with the branch's full weight,
unobserved slots keep their computed candidates. -/
theorem buildSlots_applySlot_some (S : ℕ → SlotSpec) (given : ℕ → Option ℚ) (prob : ℚ)
    (lo n : ℕ) (slots : List (List Estimate))
    (h : buildSlots (fun j => applySlot (given j) prob (S j)) lo n = some slots)
    (i : ℕ) (hlo : lo ≤ i) (hin : i < lo + n) :
    (∀ v, given i = some v →
      outOfBoundsB v (S i) = false ∧ slots.getD (i - lo) [] = [⟨v, prob⟩])
    ∧ (given i = none → slots.getD (i - lo) [] = slotCandidates prob (S i)) := by
  have hget := buildSlots_some_get _ n lo slots h (i - lo) (by omega)
  rw [show lo + (i - lo) = i by omega] at hget
  constructor
  · intro v hv
    rw [hv] at hget
    obtain ⟨hb, hl⟩ := applySlot_some_eq_some hget
    exact ⟨hb, hl.symm ▸ rfl⟩
  · intro hv
    rw [hv, applySlot_none_eq] at hget
    exact (Option.some.injEq _ _ ▸ hget).symm

/-! ### Per-generator rejection / collapse characterizations -/

theorem getD_two_cons (x y : List Estimate) (l : List (List Estimate)) (j : ℕ) :
    (x :: y :: l).getD (j + 2) [] = l.getD j [] := by
  simp [List.getD_cons_succ]

theorem generatePatternTwoWithRates_reject (g0 g1 : ℚ) (given : ℕ → Option ℚ)
    (rates : List (List Estimate)) (prob : ℚ) (i : ℕ) (v : ℚ)
    (h2 : 2 ≤ i) (h14 : i < 14) (hobs : given i = some v)
    (hout : outOfBoundsB v (patternTwoSlotSpec g0 g1 rates prob i) = true) :
    generatePatternTwoWithRates g0 g1 given rates prob = none := by
  unfold generatePatternTwoWithRates
  rw [buildSlots_applySlot_reject (patternTwoSlotSpec g0 g1 rates prob) given prob 2 12 i v h2
    (by omega) hobs hout]

theorem generatePatternTwoWithRates_some (g0 g1 : ℚ) (given : ℕ → Option ℚ)
    (rates : List (List Estimate)) (prob : ℚ) (pred : Prediction)
    (h : generatePatternTwoWithRates g0 g1 given rates prob = some pred)
    (i : ℕ) (h2 : 2 ≤ i) (h14 : i < 14) :
    (∀ v, given i = some v →
      outOfBoundsB v (patternTwoSlotSpec g0 g1 rates prob i) = false ∧
        pred.estimates.getD i [] = [⟨v, prob⟩])
    ∧ (given i = none →
        pred.estimates.getD i [] = slotCandidates prob (patternTwoSlotSpec g0 g1 rates prob i)) := by
  unfold generatePatternTwoWithRates at h
  cases hb : buildSlots (fun j => applySlot (given j) prob (patternTwoSlotSpec g0 g1 rates prob j)) 2 12 with
  | none => rw [hb] at h; exact absurd h (by simp)
  | some slots =>
    rw [hb] at h
    simp only [Option.some.injEq] at h
    have hchar := buildSlots_applySlot_some (patternTwoSlotSpec g0 g1 rates prob) given prob 2 12 slots hb i h2 (by omega)
    have hgetD : pred.estimates.getD i [] = slots.getD (i - 2) [] := by
      rw [← h]
      obtain ⟨j, rfl⟩ : ∃ j, i = j + 2 := ⟨i - 2, by omega⟩
      rw [show j + 2 - 2 = j by omega]
      exact getD_two_cons _ _ slots j
    exact ⟨fun v hv => ⟨(hchar.1 v hv).1, hgetD ▸ (hchar.1 v hv).2⟩,
      fun hv => hgetD ▸ hchar.2 hv⟩

theorem generatePatternOneWithPeak_reject (g0 g1 : ℚ) (given : ℕ → Option ℚ)
    (peakStart : ℕ) (rates : List (List Estimate)) (prob : ℚ) (i : ℕ) (v : ℚ)
    (h2 : 2 ≤ i) (h14 : i < 14) (hobs : given i = some v)
    (hout : outOfBoundsB v (patternOneSlotSpec g0 g1 peakStart rates prob i) = true) :
    generatePatternOneWithPeak g0 g1 given peakStart rates prob = none := by
  unfold generatePatternOneWithPeak
  rw [buildSlots_applySlot_reject (patternOneSlotSpec g0 g1 peakStart rates prob) given prob 2 12 i v h2
    (by omega) hobs hout]

theorem generatePatternOneWithPeak_some (g0 g1 : ℚ) (given : ℕ → Option ℚ)
    (peakStart : ℕ) (rates : List (List Estimate)) (prob : ℚ) (pred : Prediction)
    (h : generatePatternOneWithPeak g0 g1 given peakStart rates prob = some pred)
    (i : ℕ) (h2 : 2 ≤ i) (h14 : i < 14) :
    (∀ v, given i = some v →
      outOfBoundsB v (patternOneSlotSpec g0 g1 peakStart rates prob i) = false ∧
        pred.estimates.getD i [] = [⟨v, prob⟩])
    ∧ (given i = none →
        pred.estimates.getD i [] = slotCandidates prob (patternOneSlotSpec g0 g1 peakStart rates prob i)) := by
  unfold generatePatternOneWithPeak at h
  cases hb : buildSlots (fun j => applySlot (given j) prob (patternOneSlotSpec g0 g1 peakStart rates prob j)) 2 12 with
  | none => rw [hb] at h; exact absurd h (by simp)
  | some slots =>
    rw [hb] at h
    simp only [Option.some.injEq] at h
    have hchar := buildSlots_applySlot_some (patternOneSlotSpec g0 g1 peakStart rates prob) given prob 2 12 slots hb i h2 (by omega)
    have hgetD : pred.estimates.getD i [] = slots.getD (i - 2) [] := by
      rw [← h]
      obtain ⟨j, rfl⟩ : ∃ j, i = j + 2 := ⟨i - 2, by omega⟩
      rw [show j + 2 - 2 = j by omega]
      exact getD_two_cons _ _ slots j
    exact ⟨fun v hv => ⟨(hchar.1 v hv).1, hgetD ▸ (hchar.1 v hv).2⟩,
      fun hv => hgetD ▸ hchar.2 hv⟩

theorem generatePatternThreeWithPeak_reject (g0 g1 : ℚ) (given : ℕ → Option ℚ)
    (peakStart : ℕ) (spikeRate : ℚ) (r1 r2 : List (List Estimate)) (prob : ℚ) (i : ℕ) (v : ℚ)
    (h2 : 2 ≤ i) (h14 : i < 14) (hobs : given i = some v)
    (hout : outOfBoundsB v (patternThreeSlotSpec g0 g1 peakStart spikeRate r1 r2 prob i) = true) :
    generatePatternThreeWithPeak g0 g1 given peakStart spikeRate r1 r2 prob = none := by
  unfold generatePatternThreeWithPeak
  rw [buildSlots_applySlot_reject (patternThreeSlotSpec g0 g1 peakStart spikeRate r1 r2 prob) given prob 2 12 i v h2
    (by omega) hobs hout]

theorem generatePatternThreeWithPeak_some (g0 g1 : ℚ) (given : ℕ → Option ℚ)
    (peakStart : ℕ) (spikeRate : ℚ) (r1 r2 : List (List Estimate)) (prob : ℚ) (pred : Prediction)
    (h : generatePatternThreeWithPeak g0 g1 given peakStart spikeRate r1 r2 prob = some pred)
    (i : ℕ) (h2 : 2 ≤ i) (h14 : i < 14) :
    (∀ v, given i = some v →
      outOfBoundsB v (patternThreeSlotSpec g0 g1 peakStart spikeRate r1 r2 prob i) = false ∧
        pred.estimates.getD i [] = [⟨v, prob⟩])
    ∧ (given i = none →
        pred.estimates.getD i [] =
          slotCandidates prob (patternThreeSlotSpec g0 g1 peakStart spikeRate r1 r2 prob i)) := by
  unfold generatePatternThreeWithPeak at h
  cases hb : buildSlots (fun j => applySlot (given j) prob (patternThreeSlotSpec g0 g1 peakStart spikeRate r1 r2 prob j)) 2 12 with
  | none => rw [hb] at h; exact absurd h (by simp)
  | some slots =>
    rw [hb] at h
    simp only [Option.some.injEq] at h
    have hchar := buildSlots_applySlot_some (patternThreeSlotSpec g0 g1 peakStart spikeRate r1 r2 prob) given prob 2 12 slots hb i h2 (by omega)
    have hgetD : pred.estimates.getD i [] = slots.getD (i - 2) [] := by
      rw [← h]
      obtain ⟨j, rfl⟩ : ∃ j, i = j + 2 := ⟨i - 2, by omega⟩
      rw [show j + 2 - 2 = j by omega]
      exact getD_two_cons _ _ slots j
    exact ⟨fun v hv => ⟨(hchar.1 v hv).1, hgetD ▸ (hchar.1 v hv).2⟩,
      fun hv => hgetD ▸ hchar.2 hv⟩

theorem generatePatternZeroWithLengths_reject (g0 g1 : ℚ) (given : ℕ → Option ℚ)
    (hp1 dp1 hp2 dp2 hp3 : ℕ) (r1 r2 : List (List Estimate)) (prob : ℚ) (i : ℕ) (v : ℚ)
    (hsum : 2 + hp1 + dp1 + hp2 + dp2 + hp3 = 14)
    (h2 : 2 ≤ i) (h14 : i < 14) (hobs : given i = some v)
    (hout : outOfBoundsB v (patternZeroSlotSpec g0 g1 hp1 dp1 hp2 dp2 r1 r2 prob i) = true) :
    generatePatternZeroWithLengths g0 g1 given hp1 dp1 hp2 dp2 hp3 r1 r2 prob = .ok none := by
  unfold generatePatternZeroWithLengths
  split
  · rfl
  · next segA heqA =>
      rw [if_neg (by omega : ¬2 + hp1 + dp1 + hp2 + dp2 + hp3 ≠ 14)]
      by_cases hseg : i < 2 + (hp1 + dp1 + hp2 + dp2)
      · have hn := buildSlots_applySlot_reject (patternZeroSlotSpec g0 g1 hp1 dp1 hp2 dp2 r1 r2 prob)
          given prob 2 (hp1 + dp1 + hp2 + dp2) i v h2 (by omega) hobs hout
        rw [hn] at heqA
        exact Option.noConfusion heqA
      · rw [buildSlots_applySlot_reject (patternZeroSlotSpec g0 g1 hp1 dp1 hp2 dp2 r1 r2 prob) given prob
          (2 + hp1 + dp1 + hp2 + dp2) (14 - (2 + hp1 + dp1 + hp2 + dp2)) i v (by omega) (by omega) hobs hout]

theorem generatePatternZeroWithLengths_some (g0 g1 : ℚ) (given : ℕ → Option ℚ)
    (hp1 dp1 hp2 dp2 hp3 : ℕ) (r1 r2 : List (List Estimate)) (prob : ℚ) (pred : Prediction)
    (h : generatePatternZeroWithLengths g0 g1 given hp1 dp1 hp2 dp2 hp3 r1 r2 prob = .ok (some pred))
    (i : ℕ) (h2 : 2 ≤ i) (h14 : i < 14) :
    (∀ v, given i = some v →
      outOfBoundsB v (patternZeroSlotSpec g0 g1 hp1 dp1 hp2 dp2 r1 r2 prob i) = false ∧
        pred.estimates.getD i [] = [⟨v, prob⟩])
    ∧ (given i = none →
        pred.estimates.getD i [] =
          slotCandidates prob (patternZeroSlotSpec g0 g1 hp1 dp1 hp2 dp2 r1 r2 prob i)) := by
  unfold generatePatternZeroWithLengths at h
  split at h
  · exact absurd h (by simp)
  · next segA hA =>
    split at h
    · exact absurd h (by simp)
    · split at h
      · exact absurd h (by simp)
      · next segB hB =>
        simp only [Except.ok.injEq, Option.some.injEq] at h
        have hlenA : segA.length = hp1 + dp1 + hp2 + dp2 := buildSlots_some_length _ _ 2 segA hA
        have hgetD : ∀ j, pred.estimates.getD (j + 2) [] = (segA ++ segB).getD j [] := by
          intro j
          rw [← h]
          exact getD_two_cons _ _ (segA ++ segB) j
        obtain ⟨j, rfl⟩ : ∃ j, i = j + 2 := ⟨i - 2, by omega⟩
        by_cases hseg : j < hp1 + dp1 + hp2 + dp2
        · have hchar := buildSlots_applySlot_some (patternZeroSlotSpec g0 g1 hp1 dp1 hp2 dp2 r1 r2 prob)
            given prob 2 (hp1 + dp1 + hp2 + dp2) segA hA (j + 2) (by omega) (by omega)
          rw [show j + 2 - 2 = j by omega] at hchar
          have happ : (segA ++ segB).getD j [] = segA.getD j [] :=
            List.getD_append segA segB [] j (by omega)
          exact ⟨fun v hv => ⟨(hchar.1 v hv).1, by rw [hgetD j, happ]; exact (hchar.1 v hv).2⟩,
            fun hv => by rw [hgetD j, happ]; exact hchar.2 hv⟩
        · have hchar := buildSlots_applySlot_some (patternZeroSlotSpec g0 g1 hp1 dp1 hp2 dp2 r1 r2 prob)
            given prob (2 + hp1 + dp1 + hp2 + dp2) (14 - (2 + hp1 + dp1 + hp2 + dp2)) segB hB
            (j + 2) (by omega) (by omega)
          rw [show j + 2 - (2 + hp1 + dp1 + hp2 + dp2) = j - (hp1 + dp1 + hp2 + dp2) by omega] at hchar
          have happ : (segA ++ segB).getD j [] = segB.getD (j - (hp1 + dp1 + hp2 + dp2)) [] := by
            rw [List.getD_append_right segA segB [] j (by omega), hlenA]
          exact ⟨fun v hv => ⟨(hchar.1 v hv).1, by rw [hgetD j, happ]; exact (hchar.1 v hv).2⟩,
            fun hv => by rw [hgetD j, happ]; exact hchar.2 hv⟩

/-! ### Claim C3 -/

/-- C3: in every phase of every pattern branch, a slot with a known
observation outside the `[min, max]` of that slot's candidate prices
rejects the entire branch (the function returns no value, aborting all
slots); a known in-bounds observation collapses the slot to the single
entry `⟨v, probability⟩` carrying the branch's full weight; an unknown slot
keeps the computed candidates.  Stated for all four pattern generators (for
the Random pattern under the grid's phase-length identity, with `throw`
modelled as `.error`). -/
theorem claim_C3_branch_rejection_and_collapse :
    (∀ (g0 g1 : ℚ) (given : ℕ → Option ℚ) (rates : List (List Estimate)) (prob : ℚ) (i : ℕ) (v : ℚ),
      2 ≤ i → i < 14 → given i = some v →
        outOfBoundsB v (patternTwoSlotSpec g0 g1 rates prob i) = true →
        generatePatternTwoWithRates g0 g1 given rates prob = none)
    ∧ (∀ (g0 g1 : ℚ) (given : ℕ → Option ℚ) (rates : List (List Estimate)) (prob : ℚ)
        (pred : Prediction), generatePatternTwoWithRates g0 g1 given rates prob = some pred →
        ∀ i, 2 ≤ i → i < 14 →
          (∀ v, given i = some v →
            outOfBoundsB v (patternTwoSlotSpec g0 g1 rates prob i) = false ∧
              pred.estimates.getD i [] = [⟨v, prob⟩])
          ∧ (given i = none →
              pred.estimates.getD i [] = slotCandidates prob (patternTwoSlotSpec g0 g1 rates prob i)))
    ∧ (∀ (g0 g1 : ℚ) (given : ℕ → Option ℚ) (peakStart : ℕ) (rates : List (List Estimate))
        (prob : ℚ) (i : ℕ) (v : ℚ),
      2 ≤ i → i < 14 → given i = some v →
        outOfBoundsB v (patternOneSlotSpec g0 g1 peakStart rates prob i) = true →
        generatePatternOneWithPeak g0 g1 given peakStart rates prob = none)
    ∧ (∀ (g0 g1 : ℚ) (given : ℕ → Option ℚ) (peakStart : ℕ) (rates : List (List Estimate))
        (prob : ℚ) (pred : Prediction),
        generatePatternOneWithPeak g0 g1 given peakStart rates prob = some pred →
        ∀ i, 2 ≤ i → i < 14 →
          (∀ v, given i = some v →
            outOfBoundsB v (patternOneSlotSpec g0 g1 peakStart rates prob i) = false ∧
              pred.estimates.getD i [] = [⟨v, prob⟩])
          ∧ (given i = none →
              pred.estimates.getD i [] =
                slotCandidates prob (patternOneSlotSpec g0 g1 peakStart rates prob i)))
    ∧ (∀ (g0 g1 : ℚ) (given : ℕ → Option ℚ) (peakStart : ℕ) (spikeRate : ℚ)
        (r1 r2 : List (List Estimate)) (prob : ℚ) (i : ℕ) (v : ℚ),
      2 ≤ i → i < 14 → given i = some v →
        outOfBoundsB v (patternThreeSlotSpec g0 g1 peakStart spikeRate r1 r2 prob i) = true →
        generatePatternThreeWithPeak g0 g1 given peakStart spikeRate r1 r2 prob = none)
    ∧ (∀ (g0 g1 : ℚ) (given : ℕ → Option ℚ) (peakStart : ℕ) (spikeRate : ℚ)
        (r1 r2 : List (List Estimate)) (prob : ℚ) (pred : Prediction),
        generatePatternThreeWithPeak g0 g1 given peakStart spikeRate r1 r2 prob = some pred →
        ∀ i, 2 ≤ i → i < 14 →
          (∀ v, given i = some v →
            outOfBoundsB v (patternThreeSlotSpec g0 g1 peakStart spikeRate r1 r2 prob i) = false ∧
              pred.estimates.getD i [] = [⟨v, prob⟩])
          ∧ (given i = none →
              pred.estimates.getD i [] =
                slotCandidates prob (patternThreeSlotSpec g0 g1 peakStart spikeRate r1 r2 prob i)))
    ∧ (∀ (g0 g1 : ℚ) (given : ℕ → Option ℚ) (hp1 dp1 hp2 dp2 hp3 : ℕ)
        (r1 r2 : List (List Estimate)) (prob : ℚ) (i : ℕ) (v : ℚ),
      2 + hp1 + dp1 + hp2 + dp2 + hp3 = 14 →
      2 ≤ i → i < 14 → given i = some v →
        outOfBoundsB v (patternZeroSlotSpec g0 g1 hp1 dp1 hp2 dp2 r1 r2 prob i) = true →
        generatePatternZeroWithLengths g0 g1 given hp1 dp1 hp2 dp2 hp3 r1 r2 prob = .ok none)
    ∧ (∀ (g0 g1 : ℚ) (given : ℕ → Option ℚ) (hp1 dp1 hp2 dp2 hp3 : ℕ)
        (r1 r2 : List (List Estimate)) (prob : ℚ) (pred : Prediction),
        generatePatternZeroWithLengths g0 g1 given hp1 dp1 hp2 dp2 hp3 r1 r2 prob = .ok (some pred) →
        ∀ i, 2 ≤ i → i < 14 →
          (∀ v, given i = some v →
            outOfBoundsB v (patternZeroSlotSpec g0 g1 hp1 dp1 hp2 dp2 r1 r2 prob i) = false ∧
              pred.estimates.getD i [] = [⟨v, prob⟩])
          ∧ (given i = none →
              pred.estimates.getD i [] =
                slotCandidates prob (patternZeroSlotSpec g0 g1 hp1 dp1 hp2 dp2 r1 r2 prob i))) :=
  ⟨fun g0 g1 given rates prob i v h2 h14 hobs hout =>
      generatePatternTwoWithRates_reject g0 g1 given rates prob i v h2 h14 hobs hout,
    fun g0 g1 given rates prob pred h i h2 h14 =>
      generatePatternTwoWithRates_some g0 g1 given rates prob pred h i h2 h14,
    fun g0 g1 given pk rates prob i v h2 h14 hobs hout =>
      generatePatternOneWithPeak_reject g0 g1 given pk rates prob i v h2 h14 hobs hout,
    fun g0 g1 given pk rates prob pred h i h2 h14 =>
      generatePatternOneWithPeak_some g0 g1 given pk rates prob pred h i h2 h14,
    fun g0 g1 given pk sr r1 r2 prob i v h2 h14 hobs hout =>
      generatePatternThreeWithPeak_reject g0 g1 given pk sr r1 r2 prob i v h2 h14 hobs hout,
    fun g0 g1 given pk sr r1 r2 prob pred h i h2 h14 =>
      generatePatternThreeWithPeak_some g0 g1 given pk sr r1 r2 prob pred h i h2 h14,
    fun g0 g1 given hp1 dp1 hp2 dp2 hp3 r1 r2 prob i v hsum h2 h14 hobs hout =>
      generatePatternZeroWithLengths_reject g0 g1 given hp1 dp1 hp2 dp2 hp3 r1 r2 prob i v hsum h2 h14 hobs hout,
    fun g0 g1 given hp1 dp1 hp2 dp2 hp3 r1 r2 prob pred h i h2 h14 =>
      generatePatternZeroWithLengths_some g0 g1 given hp1 dp1 hp2 dp2 hp3 r1 r2 prob pred h i h2 h14⟩

/-- Witness for C3: the Decreasing-pattern branch with buy price 100 and an
observed 1000 at slot 2 (outside the slot's candidate bound) is rejected
whole. -/
theorem claim_C3_branch_rejection_and_collapse_witness :
    generatePatternTwoWithRates 100 100 (fun i => if i = 2 then some 1000 else none)
      (generateRates 0.85 0.9 0.03 0.05 12) 0.1475 = none :=
  claim_C3_branch_rejection_and_collapse.1 100 100 (fun i => if i = 2 then some 1000 else none)
    (generateRates 0.85 0.9 0.03 0.05 12) 0.1475 2 1000 (by omega) (by omega) rfl (by decide!)

/-! ### Claim C7 -/

/-- C7 counterexample: at `peak_start = 2`, `spike_rate = 2`, buy bounds
`100`, the non-designated spike sub-slot `4 = peak_start + 2` gets the
bound pair `(139, 200)`: its minimum is `floor(1.4 * 100) - 1`, i.e. it
uses the fixed `1.4` (not the spike multiplier, which would give `200`) and
it does receive the one-unit downward adjustment (without it the bound
would be `140`), contradicting the claim on both counts. -/
theorem claim_C7_counterexample :
    patternThreeSlotSpec 100 100 2 2 [] [] 1 4 = SlotSpec.bounded 139 200
    ∧ (139 : ℚ) ≠ ratFloor (2 * 100)
    ∧ (139 : ℚ) ≠ ratFloor (1.4 * 100) := by
  refine ⟨?_, by decide!, by decide!⟩
  show patternThreeSlotSpec 100 100 2 2 [] [] 1 4 = SlotSpec.bounded 139 200
  decide!

/-- C7 amended: in the Small Spike pattern's spike sub-phase
(`peak_start + 2 ≤ i < peak_start + 5`), the maximum bound is
`ceil(spike_rate * g1)` on every spike sub-slot, while the minimum bound is
`floor(c * g0) - 1` with `c = spike_rate` only on the designated sub-slot
`peak_start + 3` and `c = 1.4` (the fixed constant) on the other two spike
sub-slots; the one-unit downward adjustment applies to all three spike
sub-slots, not only the designated one. -/
theorem claim_C7_amended_spike_bounds (g0 g1 : ℚ) (peakStart : ℕ) (spikeRate : ℚ)
    (r1 r2 : List (List Estimate)) (prob : ℚ) (i : ℕ)
    (h1 : peakStart + 2 ≤ i) (h2 : i < peakStart + 5) :
    patternThreeSlotSpec g0 g1 peakStart spikeRate r1 r2 prob i =
      SlotSpec.bounded (ratFloor ((if i = peakStart + 3 then spikeRate else 1.4) * g0) - 1)
        (ratCeil (spikeRate * g1))
    ∧ (i ≠ peakStart + 3 →
        patternThreeSlotSpec g0 g1 peakStart spikeRate r1 r2 prob i =
          SlotSpec.bounded (ratFloor (1.4 * g0) - 1) (ratCeil (spikeRate * g1))) := by
  have hmain : patternThreeSlotSpec g0 g1 peakStart spikeRate r1 r2 prob i =
      SlotSpec.bounded (ratFloor ((if i = peakStart + 3 then spikeRate else 1.4) * g0) - 1)
        (ratCeil (spikeRate * g1)) := by
    unfold patternThreeSlotSpec
    rw [if_neg (by omega : ¬i < peakStart), if_neg (by omega : ¬i < peakStart + 2),
      if_pos (by omega : i < peakStart + 5)]
  refine ⟨hmain, fun hne => ?_⟩
  rw [hmain, if_neg hne]

/-- Witness for C7's amended claim at `peak_start = 2`, slot 4. -/
theorem claim_C7_amended_spike_bounds_witness :
    patternThreeSlotSpec 100 100 2 2 [] [] 1 4 =
      SlotSpec.bounded (ratFloor ((if 4 = 2 + 3 then 2 else 1.4) * 100) - 1) (ratCeil (2 * 100))
    ∧ (4 ≠ 2 + 3 →
        patternThreeSlotSpec 100 100 2 2 [] [] 1 4 =
          SlotSpec.bounded (ratFloor (1.4 * 100) - 1) (ratCeil (2 * 100))) :=
  claim_C7_amended_spike_bounds 100 100 2 2 [] [] 1 4 (by omega) (by omega)

/-! ### Claim C4 -/

/-- C4 counterexample: the Random pattern's grid does not subdivide its
prior `0.346` evenly.  The grid has 56 cells, but the cell
`(dec1 = 2, hp1 = 0, hp3 = 0)` carries `0.346/2/7/7` while the cell
`(dec1 = 2, hp1 = 6, hp3 = 0)` carries `0.346/2/7/1`; the two weights
differ and neither equals the equal share `0.346/56`. -/
theorem claim_C4_counterexample :
    (⟨2, 0, 0, 0.346 / 2 / 7 / ((7 - 0 : ℕ) : ℚ)⟩ : P0Cell) ∈ patternZeroCells
    ∧ (⟨2, 6, 0, 0.346 / 2 / 7 / ((7 - 6 : ℕ) : ℚ)⟩ : P0Cell) ∈ patternZeroCells
    ∧ patternZeroCells.length = 56
    ∧ (0.346 / 2 / 7 / ((7 - 0 : ℕ) : ℚ) : ℚ) ≠ 0.346 / 2 / 7 / ((7 - 6 : ℕ) : ℚ)
    ∧ (0.346 / 2 / 7 / ((7 - 0 : ℕ) : ℚ) : ℚ) ≠ 0.346 / 56
    ∧ (0.346 / 2 / 7 / ((7 - 6 : ℕ) : ℚ) : ℚ) ≠ 0.346 / 56 := by
  refine ⟨?_, ?_, ?_, ?_, ?_, ?_⟩ <;> decide!

/-- C4 amended: the Big Spike, Decreasing and Small Spike patterns
subdivide their priors evenly across their grids (`0.248/7` for each of the
7 peak starts, `0.1475` for the single Decreasing branch as a whole, and
`0.2585/8/61` for each of the 488 (peak, spike-rate) cells), and each
pattern's cell weights sum to its prior; the Random pattern subdivides
evenly only per nesting level — each cell carries
`0.346 / 2 / 7 / (7 - high_phase_1_len)`, which varies with
`high_phase_1_len`, and the 56 weights still sum to `0.346`. -/
theorem claim_C4_amended_grid_weights :
    (∀ c ∈ patternOneCells, c.prob = 0.248 / 7)
    ∧ patternOneCells.length = 7
    ∧ (patternOneCells.map P1Cell.prob).sum = 0.248
    ∧ (∀ c ∈ patternThreeCells, c.prob = 0.2585 / 8 / 61)
    ∧ patternThreeCells.length = 488
    ∧ (patternThreeCells.map P3Cell.prob).sum = 0.2585
    ∧ (∀ c ∈ patternZeroCells, c.prob = 0.346 / 2 / 7 / ((7 - c.hp1 : ℕ) : ℚ))
    ∧ patternZeroCells.length = 56
    ∧ (patternZeroCells.map P0Cell.prob).sum = 0.346
    ∧ (∃ c1 ∈ patternZeroCells, ∃ c2 ∈ patternZeroCells, c1.prob ≠ c2.prob) := by
  refine ⟨?_, ?_, ?_, ?_, ?_, ?_, ?_, ?_, ?_, ?_⟩ <;> decide!

/-! ### Claim C10 -/

theorem generatePatternZeroWithLengths_not_error (g0 g1 : ℚ) (given : ℕ → Option ℚ)
    (hp1 dp1 hp2 dp2 hp3 : ℕ) (r1 r2 : List (List Estimate)) (prob : ℚ)
    (hsum : 2 + hp1 + dp1 + hp2 + dp2 + hp3 = 14) :
    ∀ msg, generatePatternZeroWithLengths g0 g1 given hp1 dp1 hp2 dp2 hp3 r1 r2 prob ≠ .error msg := by
  intro msg h
  unfold generatePatternZeroWithLengths at h
  split at h
  · exact absurd h (by simp)
  · split at h
    · omega
    · split at h
      · exact absurd h (by simp)
      · exact absurd h (by simp)

theorem runPatternZeroCells_ok (g0 g1 : ℚ) (given : ℕ → Option ℚ) :
    ∀ cells : List P0Cell,
      (∀ c ∈ cells, 2 + c.hp1 + c.dec1 + (7 - c.hp1 - c.hp3) + (5 - c.dec1) + c.hp3 = 14) →
      ∃ ps, runPatternZeroCells g0 g1 given cells = .ok ps := by
  intro cells
  induction cells with
  | nil => exact fun _ => ⟨[], rfl⟩
  | cons c cs ih =>
    intro hall
    obtain ⟨ps, hps⟩ := ih (fun x hx => hall x (List.mem_cons_of_mem _ hx))
    cases hg : generatePatternZeroWithLengths g0 g1 given c.hp1 c.dec1 (7 - c.hp1 - c.hp3) (5 - c.dec1) c.hp3
        (generateRates 0.6 0.8 0.04 0.1 c.dec1) (generateRates 0.6 0.8 0.04 0.1 (5 - c.dec1)) c.prob with
    | error msg =>
      exact absurd hg
        (generatePatternZeroWithLengths_not_error g0 g1 given c.hp1 c.dec1 (7 - c.hp1 - c.hp3)
          (5 - c.dec1) c.hp3 _ _ c.prob (hall c (List.mem_cons_self _ _)) msg)
    | ok p =>
      refine ⟨p :: ps, ?_⟩
      unfold runPatternZeroCells
      rw [hg, hps]

/-- The Random-pattern enumerator never reaches the `throw`: every run
returns an ordinary prediction. -/
theorem generatePatternZero_never_throws (g0 g1 : ℚ) (given : ℕ → Option ℚ) :
    ∃ p, generatePatternZero g0 g1 given = .ok p := by
  obtain ⟨ps, hps⟩ := runPatternZeroCells_ok g0 g1 given patternZeroCells (by decide!)
  refine ⟨mergePredictions ps, ?_⟩
  unfold generatePatternZero
  rw [hps]

/-- C10: every grid cell the Random-pattern enumerator produces has its
five phase lengths summing (with the fixed first two slots) to exactly 14,
so the internal-consistency `throw` of `generatePatternZeroWithLengths` is
unreachable from `generatePatternZero`, which never errors on any input. -/
theorem claim_C10_phase_lengths_add_up :
    (∀ c ∈ patternZeroCells,
      2 + c.hp1 + c.dec1 + (7 - c.hp1 - c.hp3) + (5 - c.dec1) + c.hp3 = 14)
    ∧ (∀ (g0 g1 : ℚ) (given : ℕ → Option ℚ), ∃ p, generatePatternZero g0 g1 given = .ok p) :=
  ⟨by decide!, fun g0 g1 given => generatePatternZero_never_throws g0 g1 given⟩

/-! ### Positivity invariants -/

theorem round_div_nonneg {a b : ℚ} (ha : 0 ≤ a) (hb : 0 < b) : 0 ≤ round (a / b) := by
  have h : (0 : ℚ) ≤ a / b := div_nonneg ha (le_of_lt hb)
  have : (0 : ℚ) ≤ a / b + 1 / 2 := by linarith
  have := Int.floor_nonneg.2 this
  rw [round_eq]
  omega

theorem generateRates_allPos (startMin startMax incrMin incrMax : ℚ) (len : ℕ)
    (hss : startMin ≤ startMax) (hii : incrMin ≤ incrMax) :
    ∀ day ∈ generateRates startMin startMax incrMin incrMax len,
      ∀ e ∈ day, 0 < e.probability := by
  have hip : (0 : ℚ) < 1 / ((round ((startMax - startMin) / (0.01 : ℚ)) : ℤ) + 1 : ℚ) := by
    have h0 := round_div_nonneg (by linarith : (0 : ℚ) ≤ startMax - startMin) (by norm_num : (0 : ℚ) < 0.01)
    have : (0 : ℚ) < ((round ((startMax - startMin) / (0.01 : ℚ)) : ℤ) + 1 : ℚ) := by
      have : (0 : ℚ) ≤ ((round ((startMax - startMin) / (0.01 : ℚ)) : ℤ) : ℚ) := by exact_mod_cast h0
      linarith
    positivity
  have hcp : (0 : ℚ) < 1 / ((round ((incrMax - incrMin) / (0.01 : ℚ)) : ℤ) + 1 : ℚ) := by
    have h0 := round_div_nonneg (by linarith : (0 : ℚ) ≤ incrMax - incrMin) (by norm_num : (0 : ℚ) < 0.01)
    have : (0 : ℚ) < ((round ((incrMax - incrMin) / (0.01 : ℚ)) : ℤ) + 1 : ℚ) := by
      have : (0 : ℚ) ≤ ((round ((incrMax - incrMin) / (0.01 : ℚ)) : ℤ) : ℚ) := by exact_mod_cast h0
      linarith
    positivity
  unfold generateRates
  by_cases hlen : len = 0
  · simp [hlen]
  · rw [if_neg hlen]
    intro day hday
    refine @ratesChain_invariant (fun d => ∀ e ∈ d, 0 < e.probability) _ ?_ (len - 1) _ ?_ day hday
    · intro d hd
      exact allPos_nextRates incrMin incrMax 0.01 _ hcp d hd
    · intro e he
      obtain ⟨v, hv, rfl⟩ := List.mem_map.1 he
      exact hip

theorem allPos_getD (rates : List (List Estimate))
    (h : ∀ day ∈ rates, ∀ e ∈ day, 0 < e.probability) (j : ℕ) :
    ∀ e ∈ rates.getD j [], 0 < e.probability := by
  by_cases hj : j < rates.length
  · intro e he
    rw [List.getD_eq_getElem _ _ hj] at he
    exact h _ (List.getElem_mem hj) e he
  · rw [List.getD_eq_default _ _ (by omega)]
    simp

/-- All slots produced by a successful slot build carry positive
probabilities, provided the branch weight is positive and every
estimates-based slot spec in range is positive. -/
theorem buildSlots_applySlot_allPos (S : ℕ → SlotSpec) (given : ℕ → Option ℚ) (prob : ℚ)
    (lo n : ℕ) (slots : List (List Estimate))
    (h : buildSlots (fun j => applySlot (given j) prob (S j)) lo n = some slots)
    (hprob : 0 < prob)
    (hS : ∀ k < n, ∀ es, S (lo + k) = SlotSpec.fromEstimates es → ∀ e ∈ es, 0 < e.probability) :
    ∀ s ∈ slots, ∀ e ∈ s, 0 < e.probability := by
  intro s hs
  obtain ⟨k, hk, hsk⟩ := List.mem_iff_getElem.1 hs
  have hlen := buildSlots_some_length _ n lo slots h
  have hget := buildSlots_some_get _ n lo slots h k (by omega)
  have hsd : slots.getD k [] = s := by
    rw [List.getD_eq_getElem _ _ hk, hsk]
  rw [hsd] at hget
  cases hobs : given (lo + k) with
  | some v =>
    rw [hobs] at hget
    obtain ⟨_, hl⟩ := applySlot_some_eq_some hget
    rw [hl]
    intro e he
    rcases List.mem_singleton.1 he with rfl
    exact hprob
  | none =>
    rw [hobs, applySlot_none_eq] at hget
    have hcand : s = slotCandidates prob (S (lo + k)) := by
      have := Option.some_inj.1 hget
      exact this.symm
    rw [hcand]
    cases hspec : S (lo + k) with
    | bounded a b =>
      simp only [slotCandidates]
      exact allPos_priceRange hprob
    | fromEstimates es =>
      simp only [slotCandidates]
      exact hS k (by omega) es hspec

theorem mergeSlot_allPos (acc src : List Estimate)
    (hacc : ∀ e ∈ acc, 0 < e.probability) (hsrc : ∀ e ∈ src, 0 < e.probability) :
    ∀ e ∈ mergeSlot acc src, 0 < e.probability :=
  allPos_foldl_addToMap Estimate.price Estimate.probability src hsrc acc hacc

theorem mergeTrends_allPos (acc src : List Trend)
    (hacc : ∀ t ∈ acc, 0 < t.probability) (hsrc : ∀ t ∈ src, 0 < t.probability) :
    ∀ t ∈ mergeTrends acc src, 0 < t.probability :=
  allPos_foldl_addToTrends Trend.name Trend.probability src hsrc acc hacc

theorem mergeSlotLists_getD (src : List (List Estimate)) :
    ∀ (acc : List (List Estimate)) (j : ℕ),
      (mergeSlotLists acc src).getD j [] = mergeSlot (acc.getD j []) (src.getD j []) := by
  induction src with
  | nil =>
    intro acc j
    cases acc <;> simp [mergeSlotLists, mergeSlot]
  | cons s ss ih =>
    intro acc j
    cases acc with
    | nil =>
      show (mergeSlot [] s :: mergeSlotLists [] ss).getD j [] = _
      cases j with
      | zero => simp
      | succ k => simpa using ih [] k
    | cons a as =>
      show (mergeSlot a s :: mergeSlotLists as ss).getD j [] = _
      cases j with
      | zero => simp
      | succ k => simpa using ih as k

/-- Merging preserves positivity of all probabilities. -/
theorem allPos_mergePredictions (preds : List (Option Prediction)) :
    (∀ pr : Prediction, some pr ∈ preds →
      (∀ j, ∀ e ∈ pr.estimates.getD j [], 0 < e.probability) ∧ (∀ t ∈ pr.trends, 0 < t.probability)) →
    (∀ j, ∀ e ∈ (mergePredictions preds).estimates.getD j [], 0 < e.probability)
    ∧ (∀ t ∈ (mergePredictions preds).trends, 0 < t.probability) := by
  suffices haux : ∀ (acc : Prediction),
      ((∀ j, ∀ e ∈ acc.estimates.getD j [], 0 < e.probability) ∧ (∀ t ∈ acc.trends, 0 < t.probability)) →
      (∀ pr : Prediction, some pr ∈ preds →
        (∀ j, ∀ e ∈ pr.estimates.getD j [], 0 < e.probability) ∧ (∀ t ∈ pr.trends, 0 < t.probability)) →
      (∀ j, ∀ e ∈ (preds.foldl
          (fun acc p =>
            match p with
            | none => acc
            | some pr => ⟨mergeSlotLists acc.estimates pr.estimates, mergeTrends acc.trends pr.trends⟩)
          acc).estimates.getD j [], 0 < e.probability)
      ∧ (∀ t ∈ (preds.foldl
          (fun acc p =>
            match p with
            | none => acc
            | some pr => ⟨mergeSlotLists acc.estimates pr.estimates, mergeTrends acc.trends pr.trends⟩)
          acc).trends, 0 < t.probability) by
    intro h
    exact haux ⟨[], []⟩ ⟨by simp, by simp⟩ h
  induction preds with
  | nil => exact fun acc hacc _ => hacc
  | cons p ps ih =>
    intro acc hacc hall
    cases p with
    | none =>
      exact ih acc hacc (fun pr hpr => hall pr (List.mem_cons_of_mem _ hpr))
    | some pr =>
      refine ih _ ⟨?_, ?_⟩ (fun pr2 hpr2 => hall pr2 (List.mem_cons_of_mem _ hpr2))
      · intro j e he
        rw [mergeSlotLists_getD pr.estimates acc.estimates j] at he
        exact mergeSlot_allPos _ _ (hacc.1 j)
          ((hall pr (List.mem_cons_self _ _)).1 j) e he
      · intro t ht
        exact mergeTrends_allPos _ _ hacc.2 (hall pr (List.mem_cons_self _ _)).2 t ht

theorem generatePatternTwoWithRates_allPos (g0 g1 : ℚ) (given : ℕ → Option ℚ)
    (rates : List (List Estimate)) (prob : ℚ) (pred : Prediction)
    (h : generatePatternTwoWithRates g0 g1 given rates prob = some pred)
    (hprob : 0 < prob)
    (hrates : ∀ day ∈ rates, ∀ e ∈ day, 0 < e.probability) :
    (∀ s ∈ pred.estimates, ∀ e ∈ s, 0 < e.probability) ∧ (∀ t ∈ pred.trends, 0 < t.probability) := by
  unfold generatePatternTwoWithRates at h
  split at h
  · exact absurd h (by simp)
  · next slots hb =>
    simp only [Option.some.injEq] at h
    constructor
    · intro s hs
      rw [← h] at hs
      rcases List.mem_append.1 hs with hs | hs
      · have : s = priceRange g0 g1 prob := by
          rcases hs with _ | ⟨_, _ | ⟨_, h0⟩⟩
          · rfl
          · rfl
          · exact absurd h0 (List.not_mem_nil s)
        rw [this]
        exact allPos_priceRange hprob
      · refine buildSlots_applySlot_allPos _ given prob 2 12 slots hb hprob ?_ s hs
        intro k hk es hes
        unfold patternTwoSlotSpec at hes
        injection hes with hes
        rw [← hes]
        exact allPos_multiplyEstimates _ _ (allPos_getD rates hrates _) (allPos_priceRange hprob)
    · intro t ht
      rw [← h] at ht
      rcases List.mem_singleton.1 ht with rfl
      exact hprob

theorem generatePatternOneWithPeak_allPos (g0 g1 : ℚ) (given : ℕ → Option ℚ)
    (peakStart : ℕ) (rates : List (List Estimate)) (prob : ℚ) (pred : Prediction)
    (h : generatePatternOneWithPeak g0 g1 given peakStart rates prob = some pred)
    (hprob : 0 < prob)
    (hrates : ∀ day ∈ rates, ∀ e ∈ day, 0 < e.probability) :
    (∀ s ∈ pred.estimates, ∀ e ∈ s, 0 < e.probability) ∧ (∀ t ∈ pred.trends, 0 < t.probability) := by
  unfold generatePatternOneWithPeak at h
  split at h
  · exact absurd h (by simp)
  · next slots hb =>
    simp only [Option.some.injEq] at h
    constructor
    · intro s hs
      rw [← h] at hs
      rcases List.mem_append.1 hs with hs | hs
      · have : s = priceRange g0 g1 prob := by
          rcases hs with _ | ⟨_, _ | ⟨_, h0⟩⟩
          · rfl
          · rfl
          · exact absurd h0 (List.not_mem_nil s)
        rw [this]
        exact allPos_priceRange hprob
      · refine buildSlots_applySlot_allPos _ given prob 2 12 slots hb hprob ?_ s hs
        intro k hk es hes
        unfold patternOneSlotSpec at hes
        split_ifs at hes
        · injection hes with hes
          rw [← hes]
          exact allPos_multiplyEstimates _ _ (allPos_getD rates hrates _) (allPos_priceRange hprob)
    · intro t ht
      rw [← h] at ht
      rcases List.mem_singleton.1 ht with rfl
      exact hprob

theorem generatePatternThreeWithPeak_allPos (g0 g1 : ℚ) (given : ℕ → Option ℚ)
    (peakStart : ℕ) (spikeRate : ℚ) (r1 r2 : List (List Estimate)) (prob : ℚ) (pred : Prediction)
    (h : generatePatternThreeWithPeak g0 g1 given peakStart spikeRate r1 r2 prob = some pred)
    (hprob : 0 < prob)
    (hr1 : ∀ day ∈ r1, ∀ e ∈ day, 0 < e.probability)
    (hr2 : ∀ day ∈ r2, ∀ e ∈ day, 0 < e.probability) :
    (∀ s ∈ pred.estimates, ∀ e ∈ s, 0 < e.probability) ∧ (∀ t ∈ pred.trends, 0 < t.probability) := by
  unfold generatePatternThreeWithPeak at h
  split at h
  · exact absurd h (by simp)
  · next slots hb =>
    simp only [Option.some.injEq] at h
    constructor
    · intro s hs
      rw [← h] at hs
      rcases List.mem_append.1 hs with hs | hs
      · have : s = priceRange g0 g1 prob := by
          rcases hs with _ | ⟨_, _ | ⟨_, h0⟩⟩
          · rfl
          · rfl
          · exact absurd h0 (List.not_mem_nil s)
        rw [this]
        exact allPos_priceRange hprob
      · refine buildSlots_applySlot_allPos _ given prob 2 12 slots hb hprob ?_ s hs
        intro k hk es hes
        unfold patternThreeSlotSpec at hes
        split_ifs at hes
        · injection hes with hes
          rw [← hes]
          exact allPos_multiplyEstimates _ _ (allPos_getD r1 hr1 _) (allPos_priceRange hprob)
        · injection hes with hes
          rw [← hes]
          exact allPos_multiplyEstimates _ _ (allPos_getD r2 hr2 _) (allPos_priceRange hprob)
    · intro t ht
      rw [← h] at ht
      rcases List.mem_singleton.1 ht with rfl
      exact hprob

theorem generatePatternZeroWithLengths_allPos (g0 g1 : ℚ) (given : ℕ → Option ℚ)
    (hp1 dp1 hp2 dp2 hp3 : ℕ) (r1 r2 : List (List Estimate)) (prob : ℚ) (pred : Prediction)
    (h : generatePatternZeroWithLengths g0 g1 given hp1 dp1 hp2 dp2 hp3 r1 r2 prob = .ok (some pred))
    (hprob : 0 < prob)
    (hr1 : ∀ day ∈ r1, ∀ e ∈ day, 0 < e.probability)
    (hr2 : ∀ day ∈ r2, ∀ e ∈ day, 0 < e.probability) :
    (∀ s ∈ pred.estimates, ∀ e ∈ s, 0 < e.probability) ∧ (∀ t ∈ pred.trends, 0 < t.probability) := by
  have hSpec : ∀ (lo n : ℕ), ∀ k < n, ∀ es,
      patternZeroSlotSpec g0 g1 hp1 dp1 hp2 dp2 r1 r2 prob (lo + k) = SlotSpec.fromEstimates es →
        ∀ e ∈ es, 0 < e.probability := by
    intro lo n k hk es hes
    unfold patternZeroSlotSpec at hes
    split_ifs at hes
    · injection hes with hes
      rw [← hes]
      exact allPos_multiplyEstimates _ _ (allPos_getD r1 hr1 _) (allPos_priceRange hprob)
    · injection hes with hes
      rw [← hes]
      exact allPos_multiplyEstimates _ _ (allPos_getD r2 hr2 _) (allPos_priceRange hprob)
  unfold generatePatternZeroWithLengths at h
  split at h
  · exact absurd h (by simp)
  · next segA hA =>
    split at h
    · exact absurd h (by simp)
    · split at h
      · exact absurd h (by simp)
      · next segB hB =>
        simp only [Except.ok.injEq, Option.some.injEq] at h
        constructor
        · intro s hs
          rw [← h] at hs
          rcases List.mem_append.1 hs with hs | hs
          · rcases List.mem_append.1 hs with hs | hs
            · have : s = priceRange g0 g1 prob := by
                rcases hs with _ | ⟨_, _ | ⟨_, h0⟩⟩
                · rfl
                · rfl
                · exact absurd h0 (List.not_mem_nil s)
              rw [this]
              exact allPos_priceRange hprob
            · exact buildSlots_applySlot_allPos _ given prob 2 (hp1 + dp1 + hp2 + dp2) segA hA hprob
                (hSpec 2 (hp1 + dp1 + hp2 + dp2)) s hs
          · exact buildSlots_applySlot_allPos _ given prob (2 + hp1 + dp1 + hp2 + dp2)
              (14 - (2 + hp1 + dp1 + hp2 + dp2)) segB hB hprob
              (hSpec (2 + hp1 + dp1 + hp2 + dp2) (14 - (2 + hp1 + dp1 + hp2 + dp2))) s hs
        · intro t ht
          rw [← h] at ht
          rcases List.mem_singleton.1 ht with rfl
          exact hprob

theorem generatePatternOne_allPos (g0 g1 : ℚ) (given : ℕ → Option ℚ) :
    (∀ j, ∀ e ∈ (generatePatternOne g0 g1 given).estimates.getD j [], 0 < e.probability)
    ∧ (∀ t ∈ (generatePatternOne g0 g1 given).trends, 0 < t.probability) := by
  unfold generatePatternOne
  apply allPos_mergePredictions
  intro pr hpr
  obtain ⟨c, hc, hcp⟩ := List.mem_map.1 hpr
  have hprob : 0 < c.prob := by
    have hall : ∀ x ∈ patternOneCells, 0 < x.prob := by decide!
    exact hall c hc
  have hrates := generateRates_allPos 0.85 0.9 0.03 0.05 (c.peakStart - 2) (by norm_num) (by norm_num)
  obtain ⟨hest, htr⟩ := generatePatternOneWithPeak_allPos g0 g1 given c.peakStart
    (generateRates 0.85 0.9 0.03 0.05 (c.peakStart - 2)) c.prob pr hcp hprob hrates
  exact ⟨fun j => allPos_getD pr.estimates hest j, htr⟩

theorem generatePatternTwo_allPos (g0 g1 : ℚ) (given : ℕ → Option ℚ) (pred : Prediction)
    (h : generatePatternTwo g0 g1 given = some pred) :
    (∀ j, ∀ e ∈ pred.estimates.getD j [], 0 < e.probability)
    ∧ (∀ t ∈ pred.trends, 0 < t.probability) := by
  unfold generatePatternTwo at h
  obtain ⟨hest, htr⟩ := generatePatternTwoWithRates_allPos g0 g1 given
    (generateRates 0.85 0.9 0.03 0.05 12) 0.1475 pred h (by norm_num)
    (generateRates_allPos 0.85 0.9 0.03 0.05 12 (by norm_num) (by norm_num))
  exact ⟨fun j => allPos_getD pred.estimates hest j, htr⟩

theorem generatePatternThree_allPos (g0 g1 : ℚ) (given : ℕ → Option ℚ) :
    (∀ j, ∀ e ∈ (generatePatternThree g0 g1 given).estimates.getD j [], 0 < e.probability)
    ∧ (∀ t ∈ (generatePatternThree g0 g1 given).trends, 0 < t.probability) := by
  unfold generatePatternThree
  apply allPos_mergePredictions
  intro pr hpr
  obtain ⟨c, hc, hcp⟩ := List.mem_map.1 hpr
  have hprob : 0 < c.prob := by
    have hall : ∀ x ∈ patternThreeCells, 0 < x.prob := by decide!
    exact hall c hc
  obtain ⟨hest, htr⟩ := generatePatternThreeWithPeak_allPos g0 g1 given c.peakStart c.spikeRate
    (generateRates 0.4 0.9 0.03 0.05 (c.peakStart - 2))
    (generateRates 0.4 0.9 0.03 0.05 (9 - c.peakStart)) c.prob pr hcp hprob
    (generateRates_allPos 0.4 0.9 0.03 0.05 (c.peakStart - 2) (by norm_num) (by norm_num))
    (generateRates_allPos 0.4 0.9 0.03 0.05 (9 - c.peakStart) (by norm_num) (by norm_num))
  exact ⟨fun j => allPos_getD pr.estimates hest j, htr⟩

theorem runPatternZeroCells_mem (g0 g1 : ℚ) (given : ℕ → Option ℚ) :
    ∀ (cells : List P0Cell) (ps : List (Option Prediction)),
      runPatternZeroCells g0 g1 given cells = .ok ps →
      ∀ x ∈ ps, ∃ c ∈ cells,
        generatePatternZeroWithLengths g0 g1 given c.hp1 c.dec1 (7 - c.hp1 - c.hp3) (5 - c.dec1) c.hp3
          (generateRates 0.6 0.8 0.04 0.1 c.dec1) (generateRates 0.6 0.8 0.04 0.1 (5 - c.dec1)) c.prob
          = .ok x := by
  intro cells
  induction cells with
  | nil =>
    intro ps h x hx
    simp only [runPatternZeroCells, Except.ok.injEq] at h
    rw [← h] at hx
    exact absurd hx (List.not_mem_nil x)
  | cons c cs ih =>
    intro ps h x hx
    unfold runPatternZeroCells at h
    split at h
    · exact absurd h (by simp)
    · next p hp =>
      split at h
      · exact absurd h (by simp)
      · next ps2 hps2 =>
        simp only [Except.ok.injEq] at h
        rw [← h] at hx
        rcases List.mem_cons.1 hx with rfl | hx
        · exact ⟨c, List.mem_cons_self _ _, hp⟩
        · obtain ⟨c2, hc2, hg2⟩ := ih ps2 hps2 x hx
          exact ⟨c2, List.mem_cons_of_mem _ hc2, hg2⟩

theorem generatePatternZero_allPos (g0 g1 : ℚ) (given : ℕ → Option ℚ) (p : Prediction)
    (h : generatePatternZero g0 g1 given = .ok p) :
    (∀ j, ∀ e ∈ p.estimates.getD j [], 0 < e.probability)
    ∧ (∀ t ∈ p.trends, 0 < t.probability) := by
  unfold generatePatternZero at h
  split at h
  · exact absurd h (by simp)
  · next ps hps =>
    simp only [Except.ok.injEq] at h
    rw [← h]
    apply allPos_mergePredictions
    intro pr hpr
    obtain ⟨c, hc, hcg⟩ := runPatternZeroCells_mem g0 g1 given patternZeroCells ps hps (some pr) hpr
    have hprob : 0 < c.prob := by
      have hall : ∀ x ∈ patternZeroCells, 0 < x.prob := by decide!
      exact hall c hc
    obtain ⟨hest, htr⟩ := generatePatternZeroWithLengths_allPos g0 g1 given c.hp1 c.dec1
      (7 - c.hp1 - c.hp3) (5 - c.dec1) c.hp3
      (generateRates 0.6 0.8 0.04 0.1 c.dec1) (generateRates 0.6 0.8 0.04 0.1 (5 - c.dec1)) c.prob pr
      hcg hprob
      (generateRates_allPos 0.6 0.8 0.04 0.1 c.dec1 (by norm_num) (by norm_num))
      (generateRates_allPos 0.6 0.8 0.04 0.1 (5 - c.dec1) (by norm_num) (by norm_num))
    exact ⟨fun j => allPos_getD pr.estimates hest j, htr⟩

/-! ### Normalization -/

theorem sum_map_mul_right {α : Type} (l : List α) (c : ℚ) (f : α → ℚ) :
    (l.map (fun x => f x * c)).sum = (l.map f).sum * c := by
  induction l with
  | nil => simp
  | cons x rest ih => simp [ih]; ring

theorem sumProb_nonneg (es : List Estimate) (h : ∀ e ∈ es, 0 ≤ e.probability) :
    0 ≤ sumProb es := by
  induction es with
  | nil => simp [sumProb]
  | cons e rest ih =>
    rw [sumProb_cons]
    have h1 := h e (List.mem_cons_self _ _)
    have h2 := ih (fun x hx => h x (List.mem_cons_of_mem _ hx))
    linarith

theorem sumProb_pos (es : List Estimate) (h : ∀ e ∈ es, 0 < e.probability) (hne : es ≠ []) :
    0 < sumProb es := by
  cases es with
  | nil => exact absurd rfl hne
  | cons e rest =>
    rw [sumProb_cons]
    have h1 := h e (List.mem_cons_self _ _)
    have h2 := sumProb_nonneg rest (fun x hx => le_of_lt (h x (List.mem_cons_of_mem _ hx)))
    linarith

theorem sumTrendProb_nonneg (ts : List Trend) (h : ∀ t ∈ ts, 0 ≤ t.probability) :
    0 ≤ sumTrendProb ts := by
  induction ts with
  | nil => simp [sumTrendProb]
  | cons t rest ih =>
    rw [sumTrendProb_cons]
    have h1 := h t (List.mem_cons_self _ _)
    have h2 := ih (fun x hx => h x (List.mem_cons_of_mem _ hx))
    linarith

theorem sumTrendProb_pos (ts : List Trend) (h : ∀ t ∈ ts, 0 < t.probability) (hne : ts ≠ []) :
    0 < sumTrendProb ts := by
  cases ts with
  | nil => exact absurd rfl hne
  | cons t rest =>
    rw [sumTrendProb_cons]
    have h1 := h t (List.mem_cons_self _ _)
    have h2 := sumTrendProb_nonneg rest (fun x hx => le_of_lt (h x (List.mem_cons_of_mem _ hx)))
    linarith

theorem sumProb_scale (l : List Estimate) (c : ℚ) :
    sumProb (l.map (fun e => ⟨e.price, e.probability * c⟩)) = sumProb l * c := by
  unfold sumProb
  rw [List.map_map]
  have hcomp : (Estimate.probability ∘ fun e : Estimate => (⟨e.price, e.probability * c⟩ : Estimate)) =
      fun e : Estimate => e.probability * c := rfl
  rw [hcomp, sum_map_mul_right]

theorem sumTrendProb_scale (l : List Trend) (c : ℚ) :
    sumTrendProb (l.map (fun t => ⟨t.name, t.probability * c⟩)) = sumTrendProb l * c := by
  unfold sumTrendProb
  rw [List.map_map]
  have hcomp : (Trend.probability ∘ fun t : Trend => (⟨t.name, t.probability * c⟩ : Trend)) =
      fun t : Trend => t.probability * c := rfl
  rw [hcomp, sum_map_mul_right]

theorem getD_map_nil_preserving (l : List (List Estimate)) (f : List Estimate → List Estimate)
    (hf : f [] = []) (j : ℕ) : (l.map f).getD j [] = f (l.getD j []) := by
  by_cases hj : j < l.length
  · rw [List.getD_eq_getElem _ _ (by simpa using hj), List.getD_eq_getElem _ _ hj, List.getElem_map]
  · rw [List.getD_eq_default _ _ (by simpa using hj), List.getD_eq_default _ _ (by omega), hf]

/-- After `normalizePrediction`, every non-empty slot sums to exactly 1
(and an empty slot stays empty with sum 0); same for the trend vector. -/
theorem normalizePrediction_sums (p : Prediction)
    (hest : ∀ j, ∀ e ∈ p.estimates.getD j [], 0 < e.probability)
    (htr : ∀ t ∈ p.trends, 0 < t.probability) :
    (∀ j, sumProb ((normalizePrediction p).estimates.getD j []) =
      if (normalizePrediction p).estimates.getD j [] = [] then 0 else 1)
    ∧ sumTrendProb (normalizePrediction p).trends =
      if (normalizePrediction p).trends = [] then 0 else 1 := by
  constructor
  · intro j
    have hget : (normalizePrediction p).estimates.getD j [] =
        (p.estimates.getD j []).map
          (fun e => ⟨e.price, e.probability * (1 / sumProb (p.estimates.getD j []))⟩) := by
      unfold normalizePrediction
      exact getD_map_nil_preserving p.estimates _ rfl j
    rw [hget]
    cases hes : p.estimates.getD j [] with
    | nil => simp [sumProb]
    | cons e rest =>
      rw [if_neg (by simp)]
      have hpos : 0 < sumProb (e :: rest) := by
        apply sumProb_pos
        · rw [← hes]; exact hest j
        · simp
      rw [sumProb_scale]
      field_simp
  · have hget : (normalizePrediction p).trends =
        p.trends.map (fun t => ⟨t.name, t.probability * (1 / sumTrendProb p.trends)⟩) := rfl
    rw [hget]
    cases hts : p.trends with
    | nil => simp [sumTrendProb]
    | cons t rest =>
      rw [if_neg (by simp)]
      have hpos : 0 < sumTrendProb (t :: rest) := by
        apply sumTrendProb_pos
        · rw [← hts]; exact htr
        · simp
      rw [sumTrendProb_scale]
      field_simp

/-! ### Claim C2 -/

/-- C2: for every buy price and observation vector, after the top-level
predictor merges the four pattern enumerators and renormalizes, every
non-empty per-slot distribution sums to exactly 1 (empty slots stay empty
with sum 0), and the trend vector sums to exactly 1 whenever at least one
pattern branch survived (i.e. the trend list is non-empty).  Over the exact
arithmetic of the embedding the 1e-9 tolerance becomes equality. -/
theorem claim_C2_renormalized_sums (buy : Option ℚ) (given : ℕ → Option ℚ) :
    (∀ j, sumProb ((predict buy given).estimates.getD j []) =
      if (predict buy given).estimates.getD j [] = [] then 0 else 1)
    ∧ sumTrendProb (predict buy given).trends =
      if (predict buy given).trends = [] then 0 else 1 := by
  have hcore : ∀ g0 g1 : ℚ,
      (∀ j, sumProb ((normalizePrediction (mergePredictions
          [some (match generatePatternZero g0 g1 given with
                 | .ok p => p
                 | .error _ => (⟨[], []⟩ : Prediction)),
            some (generatePatternOne g0 g1 given),
            generatePatternTwo g0 g1 given,
            some (generatePatternThree g0 g1 given)])).estimates.getD j []) =
        if (normalizePrediction (mergePredictions
          [some (match generatePatternZero g0 g1 given with
                 | .ok p => p
                 | .error _ => (⟨[], []⟩ : Prediction)),
            some (generatePatternOne g0 g1 given),
            generatePatternTwo g0 g1 given,
            some (generatePatternThree g0 g1 given)])).estimates.getD j [] = [] then 0 else 1)
      ∧ sumTrendProb (normalizePrediction (mergePredictions
          [some (match generatePatternZero g0 g1 given with
                 | .ok p => p
                 | .error _ => (⟨[], []⟩ : Prediction)),
            some (generatePatternOne g0 g1 given),
            generatePatternTwo g0 g1 given,
            some (generatePatternThree g0 g1 given)])).trends =
        if (normalizePrediction (mergePredictions
          [some (match generatePatternZero g0 g1 given with
                 | .ok p => p
                 | .error _ => (⟨[], []⟩ : Prediction)),
            some (generatePatternOne g0 g1 given),
            generatePatternTwo g0 g1 given,
            some (generatePatternThree g0 g1 given)])).trends = [] then 0 else 1 := by
    intro g0 g1
    have hmem : ∀ pr : Prediction,
        some pr ∈ [some (match generatePatternZero g0 g1 given with
                   | .ok p => p
                   | .error _ => (⟨[], []⟩ : Prediction)),
            some (generatePatternOne g0 g1 given),
            generatePatternTwo g0 g1 given,
            some (generatePatternThree g0 g1 given)] →
        (∀ j, ∀ e ∈ pr.estimates.getD j [], 0 < e.probability)
        ∧ (∀ t ∈ pr.trends, 0 < t.probability) := by
      intro pr hpr
      simp only [List.mem_cons, List.not_mem_nil, or_false] at hpr
      rcases hpr with h | h | h | h
      · cases hz : generatePatternZero g0 g1 given with
        | ok p =>
          rw [hz] at h
          simp only [Option.some.injEq] at h
          rw [h]
          exact generatePatternZero_allPos g0 g1 given p hz
        | error msg =>
          rw [hz] at h
          simp only [Option.some.injEq] at h
          rw [h]
          exact ⟨fun j => by simp, by simp⟩
      · simp only [Option.some.injEq] at h
        rw [h]
        exact generatePatternOne_allPos g0 g1 given
      · exact generatePatternTwo_allPos g0 g1 given pr h.symm
      · simp only [Option.some.injEq] at h
        rw [h]
        exact generatePatternThree_allPos g0 g1 given
    exact normalizePrediction_sums _ (allPos_mergePredictions _ hmem).1 (allPos_mergePredictions _ hmem).2
  exact hcore _ _

/-! ### Global rejection of an impossible observation (claim C1) -/

theorem generateRates_day0_bounds (sm sM im iM : ℚ) (len : ℕ) :
    ∀ e ∈ (generateRates sm sM im iM len).getD 0 [], sm ≤ e.price ∧ e.price ≤ sM + 0.01 / 10 := by
  unfold generateRates
  by_cases hlen : len = 0
  · simp [hlen]
  · rw [if_neg hlen, ratesChain_getD_zero]
    intro e he
    obtain ⟨v, hv, rfl⟩ := List.mem_map.1 he
    exact ⟨le_stepValues (by norm_num) hv, stepValues_le (by norm_num) hv⟩

theorem maxPrice_lt (es : List Estimate) (v : ℚ) (h : ∀ e ∈ es, e.price < v) :
    maxPrice es < (v : WithBot ℚ) := by
  induction es with
  | nil => exact WithBot.bot_lt_coe v
  | cons e rest ih =>
    unfold maxPrice
    rw [List.foldr_cons]
    refine max_lt ?_ (ih (fun x hx => h x (List.mem_cons_of_mem _ hx)))
    exact_mod_cast h e (List.mem_cons_self _ _)

theorem outOfBounds_of_all_lt (v : ℚ) (es : List Estimate) (h : ∀ e ∈ es, e.price < v) :
    outOfBoundsB v (SlotSpec.fromEstimates es) = true := by
  unfold outOfBoundsB
  rw [Bool.or_eq_true]
  right
  exact decide_eq_true (maxPrice_lt es v h)

/-- Every price produced by multiplying a rate table's day 0 against the
single-point prior `priceRange 100 100` stays below 1000 when the rates are
bounded by a constant with `ceil(bound * 100) < 1000`. -/
theorem multiply_day0_price_lt (r : List (List Estimate)) (bound prob : ℚ)
    (hb : ∀ e ∈ r.getD 0 [], e.price ≤ bound) (hbound : ratCeil (bound * 100) < 1000) :
    ∀ e ∈ multiplyEstimates (r.getD 0 []) (priceRange 100 100 prob), e.price < 1000 := by
  intro e he
  obtain ⟨x, hx, y, hy, hexy⟩ := price_mem_multiplyEstimates _ _ e he
  obtain ⟨_, hy1, hy2, _⟩ := mem_priceRange hy
  have hy100 : y.price = 100 := le_antisymm hy2 hy1
  rw [hexy, hy100]
  have hm : x.price * 100 ≤ bound * 100 := mul_le_mul_of_nonneg_right (hb x hx) (by norm_num)
  have hc : ratCeil (x.price * 100) ≤ ratCeil (bound * 100) := by
    unfold ratCeil
    exact_mod_cast Int.ceil_le_ceil hm
  linarith

theorem mergePredictions_all_none (preds : List (Option Prediction))
    (h : ∀ x ∈ preds, x = none) : mergePredictions preds = ⟨[], []⟩ := by
  unfold mergePredictions
  induction preds with
  | nil => rfl
  | cons p ps ih =>
    rw [List.foldl_cons, h p (List.mem_cons_self _ _)]
    exact ih (fun x hx => h x (List.mem_cons_of_mem _ hx))

theorem generatePatternTwo_rejects_1000 :
    generatePatternTwo 100 100 (fun i => if i = 2 then some 1000 else none) = none := by
  unfold generatePatternTwo
  refine generatePatternTwoWithRates_reject 100 100 _ _ 0.1475 2 1000 (by omega) (by omega) rfl ?_
  show outOfBoundsB 1000 (SlotSpec.fromEstimates
    (multiplyEstimates ((generateRates 0.85 0.9 0.03 0.05 12).getD 0 []) (priceRange 100 100 0.1475))) = true
  refine outOfBounds_of_all_lt 1000 _ (multiply_day0_price_lt _ (0.9 + 0.01 / 10) _ ?_ (by decide!))
  exact fun e he => (generateRates_day0_bounds 0.85 0.9 0.03 0.05 12 e he).2

theorem generatePatternOne_rejects_1000 :
    generatePatternOne 100 100 (fun i => if i = 2 then some 1000 else none) = ⟨[], []⟩ := by
  unfold generatePatternOne
  apply mergePredictions_all_none
  intro x hx
  obtain ⟨c, hc, hcx⟩ := List.mem_map.1 hx
  have hpk : 3 ≤ c.peakStart := by
    have hall : ∀ y ∈ patternOneCells, 3 ≤ y.peakStart := by decide!
    exact hall c hc
  rw [← hcx]
  refine generatePatternOneWithPeak_reject 100 100 _ c.peakStart _ c.prob 2 1000 (by omega) (by omega) rfl ?_
  have hspec : patternOneSlotSpec 100 100 c.peakStart
      (generateRates 0.85 0.9 0.03 0.05 (c.peakStart - 2)) c.prob 2 =
      SlotSpec.fromEstimates (multiplyEstimates
        ((generateRates 0.85 0.9 0.03 0.05 (c.peakStart - 2)).getD 0 []) (priceRange 100 100 c.prob)) := by
    unfold patternOneSlotSpec
    rw [if_pos (by omega : 2 < c.peakStart)]
  rw [hspec]
  refine outOfBounds_of_all_lt 1000 _ (multiply_day0_price_lt _ (0.9 + 0.01 / 10) _ ?_ (by decide!))
  exact fun e he => (generateRates_day0_bounds 0.85 0.9 0.03 0.05 (c.peakStart - 2) e he).2

theorem generatePatternThree_rejects_1000 :
    generatePatternThree 100 100 (fun i => if i = 2 then some 1000 else none) = ⟨[], []⟩ := by
  unfold generatePatternThree
  apply mergePredictions_all_none
  intro x hx
  obtain ⟨c, hc, hcx⟩ := List.mem_map.1 hx
  have hpk : 2 ≤ c.peakStart := by
    have hall : ∀ y ∈ patternThreeCells, 2 ≤ y.peakStart := by decide!
    exact hall c hc
  rw [← hcx]
  refine generatePatternThreeWithPeak_reject 100 100 _ c.peakStart c.spikeRate _ _ c.prob 2 1000
    (by omega) (by omega) rfl ?_
  by_cases hpk2 : 2 < c.peakStart
  · have hspec : patternThreeSlotSpec 100 100 c.peakStart c.spikeRate
        (generateRates 0.4 0.9 0.03 0.05 (c.peakStart - 2))
        (generateRates 0.4 0.9 0.03 0.05 (9 - c.peakStart)) c.prob 2 =
        SlotSpec.fromEstimates (multiplyEstimates
          ((generateRates 0.4 0.9 0.03 0.05 (c.peakStart - 2)).getD 0 []) (priceRange 100 100 c.prob)) := by
      unfold patternThreeSlotSpec
      rw [if_pos (by omega : 2 < c.peakStart)]
    rw [hspec]
    refine outOfBounds_of_all_lt 1000 _ (multiply_day0_price_lt _ (0.9 + 0.01 / 10) _ ?_ (by decide!))
    exact fun e he => (generateRates_day0_bounds 0.4 0.9 0.03 0.05 (c.peakStart - 2) e he).2
  · have hpeq : c.peakStart = 2 := by omega
    have hspec : patternThreeSlotSpec 100 100 c.peakStart c.spikeRate
        (generateRates 0.4 0.9 0.03 0.05 (c.peakStart - 2))
        (generateRates 0.4 0.9 0.03 0.05 (9 - c.peakStart)) c.prob 2 =
        SlotSpec.bounded (ratFloor (0.9 * 100)) (ratCeil (1.4 * 100)) := by
      unfold patternThreeSlotSpec
      rw [if_neg (by omega : ¬2 < c.peakStart), if_pos (by omega : 2 < c.peakStart + 2)]
    rw [hspec]
    decide!

theorem generatePatternZero_rejects_1000 :
    generatePatternZero 100 100 (fun i => if i = 2 then some 1000 else none) = .ok ⟨[], []⟩ := by
  have hcells : ∀ c ∈ patternZeroCells,
      generatePatternZeroWithLengths 100 100 (fun i => if i = 2 then some 1000 else none)
        c.hp1 c.dec1 (7 - c.hp1 - c.hp3) (5 - c.dec1) c.hp3
        (generateRates 0.6 0.8 0.04 0.1 c.dec1) (generateRates 0.6 0.8 0.04 0.1 (5 - c.dec1)) c.prob
        = .ok none := by
    intro c hc
    have hsum : 2 + c.hp1 + c.dec1 + (7 - c.hp1 - c.hp3) + (5 - c.dec1) + c.hp3 = 14 := by
      have hall : ∀ y ∈ patternZeroCells,
          2 + y.hp1 + y.dec1 + (7 - y.hp1 - y.hp3) + (5 - y.dec1) + y.hp3 = 14 := by decide!
      exact hall c hc
    have hdec : 2 ≤ c.dec1 := by
      have hall : ∀ y ∈ patternZeroCells, 2 ≤ y.dec1 := by decide!
      exact hall c hc
    refine generatePatternZeroWithLengths_reject 100 100 _ c.hp1 c.dec1 (7 - c.hp1 - c.hp3)
      (5 - c.dec1) c.hp3 _ _ c.prob 2 1000 hsum (by omega) (by omega) rfl ?_
    by_cases hp1 : 0 < c.hp1
    · have hspec : patternZeroSlotSpec 100 100 c.hp1 c.dec1 (7 - c.hp1 - c.hp3) (5 - c.dec1)
          (generateRates 0.6 0.8 0.04 0.1 c.dec1) (generateRates 0.6 0.8 0.04 0.1 (5 - c.dec1)) c.prob 2 =
          SlotSpec.bounded (ratFloor (0.9 * 100)) (ratCeil (1.4 * 100)) := by
        unfold patternZeroSlotSpec
        rw [if_pos (by omega : 2 < 2 + c.hp1)]
      rw [hspec]
      decide!
    · have hspec : patternZeroSlotSpec 100 100 c.hp1 c.dec1 (7 - c.hp1 - c.hp3) (5 - c.dec1)
          (generateRates 0.6 0.8 0.04 0.1 c.dec1) (generateRates 0.6 0.8 0.04 0.1 (5 - c.dec1)) c.prob 2 =
          SlotSpec.fromEstimates (multiplyEstimates
            ((generateRates 0.6 0.8 0.04 0.1 c.dec1).getD (2 - (2 + c.hp1)) [])
            (priceRange 100 100 c.prob)) := by
        unfold patternZeroSlotSpec
        rw [if_neg (by omega : ¬2 < 2 + c.hp1), if_pos (by omega : 2 < 2 + c.hp1 + c.dec1)]
      rw [hspec]
      have h20 : 2 - (2 + c.hp1) = 0 := by omega
      rw [h20]
      refine outOfBounds_of_all_lt 1000 _ (multiply_day0_price_lt _ (0.8 + 0.01 / 10) _ ?_ (by decide!))
      exact fun e he => (generateRates_day0_bounds 0.6 0.8 0.04 0.1 c.dec1 e he).2
  have hrun : ∀ cells : List P0Cell,
      (∀ c ∈ cells,
        generatePatternZeroWithLengths 100 100 (fun i => if i = 2 then some 1000 else none)
          c.hp1 c.dec1 (7 - c.hp1 - c.hp3) (5 - c.dec1) c.hp3
          (generateRates 0.6 0.8 0.04 0.1 c.dec1) (generateRates 0.6 0.8 0.04 0.1 (5 - c.dec1)) c.prob
          = .ok none) →
      runPatternZeroCells 100 100 (fun i => if i = 2 then some 1000 else none) cells =
        .ok (cells.map (fun _ => none)) := by
    intro cells
    induction cells with
    | nil => exact fun _ => rfl
    | cons c cs ih =>
      intro hall
      unfold runPatternZeroCells
      rw [hall c (List.mem_cons_self _ _), ih (fun x hx => hall x (List.mem_cons_of_mem _ hx))]
      rfl
  unfold generatePatternZero
  rw [hrun patternZeroCells hcells]
  have hnone : mergePredictions (patternZeroCells.map (fun _ => none)) = (⟨[], []⟩ : Prediction) := by
    apply mergePredictions_all_none
    intro x hx
    obtain ⟨a, _, ha⟩ := List.mem_map.1 hx
    exact ha.symm
  show Except.ok (mergePredictions (patternZeroCells.map (fun _ => none))) =
    Except.ok (⟨[], []⟩ : Prediction)
  rw [hnone]

/-- With buy price 100 and the single impossible observation 1000 at slot
2, every branch of all four patterns is rejected and the merged, normalized
prediction is completely empty. -/
theorem predict_impossible_value :
    predict (some 100) (fun i => if i = 2 then some 1000 else none) = ⟨[], []⟩ := by
  have hbp : (match some (100 : ℚ) with
      | some b => if b < 90 ∨ 110 < b then none else some b
      | none => none) = some (100 : ℚ) := by
    show (if (100 : ℚ) < 90 ∨ (110 : ℚ) < 100 then none else some (100 : ℚ)) = some (100 : ℚ)
    rw [if_neg (by norm_num)]
  unfold predict
  rw [hbp]
  show normalizePrediction (mergePredictions
      [some (match generatePatternZero ((some (100 : ℚ)).getD 90) ((some (100 : ℚ)).getD 110)
               (fun i => if i = 2 then some 1000 else none) with
             | .ok p => p
             | .error _ => (⟨[], []⟩ : Prediction)),
        some (generatePatternOne ((some (100 : ℚ)).getD 90) ((some (100 : ℚ)).getD 110)
          (fun i => if i = 2 then some 1000 else none)),
        generatePatternTwo ((some (100 : ℚ)).getD 90) ((some (100 : ℚ)).getD 110)
          (fun i => if i = 2 then some 1000 else none),
        some (generatePatternThree ((some (100 : ℚ)).getD 90) ((some (100 : ℚ)).getD 110)
          (fun i => if i = 2 then some 1000 else none))]) = ⟨[], []⟩
  rw [show ((some (100 : ℚ)).getD 90) = (100 : ℚ) from rfl,
    show ((some (100 : ℚ)).getD 110) = (100 : ℚ) from rfl]
  rw [generatePatternZero_rejects_1000, generatePatternOne_rejects_1000,
    generatePatternTwo_rejects_1000, generatePatternThree_rejects_1000]
  rfl

/-! ### Claim C1 -/

/-- C1 counterexample: with buy price 100 and the observation vector that
is 1000 at slot 2 and unknown elsewhere, the claim "the contradicted slot's
distribution is empty while every other slot's distribution is non-empty"
is false on the code: rejection is global, so slot 3 (like every slot) is
empty as well. -/
theorem claim_C1_counterexample :
    ¬((predict (some 100) (fun i => if i = 2 then some 1000 else none)).estimates.getD 2 [] = []
      ∧ ∀ j, 2 ≤ j → j < 14 → j ≠ 2 →
        (predict (some 100) (fun i => if i = 2 then some 1000 else none)).estimates.getD j [] ≠ []) := by
  intro ⟨_, h⟩
  refine h 3 (by omega) (by omega) (by omega) ?_
  rw [predict_impossible_value]
  rfl

/-- C1 amended: an observation inconsistent with every branch of all four
patterns rejects every branch whole, so the merged prediction's estimates
list and trend list are both completely empty — rejection is global, not
localized to the contradicted slot (each slot is then rendered as ERROR
downstream). -/
theorem claim_C1_amended_global_rejection :
    (predict (some 100) (fun i => if i = 2 then some 1000 else none)).estimates = []
    ∧ (predict (some 100) (fun i => if i = 2 then some 1000 else none)).trends = [] := by
  rw [predict_impossible_value]
  exact ⟨rfl, rfl⟩

end StalkMarket
